import Mathlib

/-!
# Verification of the repindex dependency-graph engine

A shallow embedding of `repindex/repindex.py` (Python) in Lean 4.

Modelling conventions:
* Strings are processed as `List Char` with structural recursion so that all
  definitions evaluate inside the kernel (`decide`/`rfl`).
* Scanning loops that are not structurally recursive in the source are given a
  fuel argument always instantiated with a provably sufficient value
  (`length + 1` style bounds); Python's unbounded loops/recursion terminate for
  the same reason the fuel suffices.
* `os.walk` output and the real filesystem are modelled as explicit inputs
  (a listing of root-relative file paths with contents, and an existence/isdir
  oracle), as the spec itself recommends ("keep the resolver's filesystem
  probing behind a narrow interface").
* Python `dict`s are modelled as association lists with insert-or-overwrite
  (`dictInsert`), preserving the original insertion order as CPython does.
* Python `set`s are modelled as lists used only up to membership.
-/

/-! ## Basic character utilities (ASCII fragment of Python `\s`, `\w`) -/

/-- Python regex `\s` on ASCII text: space, tab, newline, carriage return,
vertical tab, form feed. -/
def isSpaceC (c : Char) : Bool :=
  c == ' ' || c == '\t' || c == '\n' || c == '\r' || c == Char.ofNat 11 || c == Char.ofNat 12

/-- Python regex `\w` on ASCII text: letters, digits, underscore. -/
def isWordC (c : Char) : Bool :=
  c.isAlpha || c.isDigit || c == '_'

/-- If `cs` starts with the literal `pat`, return the rest; else `none`. -/
def dropPrefixC : List Char → List Char → Option (List Char)
  | [], cs => some cs
  | _ :: _, [] => none
  | p :: ps, c :: cs => if c == p then dropPrefixC ps cs else none

/-! ## The Fact Extractor's pattern-matching strategy (`extract_dependencies_ts`)

The source applies two regexes with `re.findall`:
  `imp_pat = r'import\s+(?:[\s\S]*?)from\s+[\'"](.+?)[\'"];'`
  `exp_pat = r'export\s+(?:default\s+)?(?:class|function|const|let|var|interface|type|enum)?\s*([\w]+)'`
The matchers below implement exactly these two patterns (leftmost,
non-overlapping matches; lazy and greedy quantifiers resolved as CPython's
backtracking engine does). -/

/-- Lazy scan for `(.+?)[\'"];`: accumulate capture characters (no newline,
at least one) until the next two characters are a quote and a semicolon.
Returns (capture, rest after the semicolon). -/
def scanCapture : List Char → List Char → Option (List Char × List Char)
  | acc, c1 :: c2 :: rest =>
    if acc ≠ [] && (c1 == '\'' || c1 == '"') && c2 == ';' then
      some (acc.reverse, rest)
    else if c1 == '\n' then none
    else scanCapture (c1 :: acc) (c2 :: rest)
  | _, [_] => none
  | _, [] => none

/-- Try to match `from\s+[\'"](.+?)[\'"];` at the head of `cs`. -/
def matchFromTail (cs : List Char) : Option (List Char × List Char) :=
  match dropPrefixC ['f', 'r', 'o', 'm'] cs with
  | none => none
  | some rest =>
    match rest with
    | [] => none
    | c :: rest' =>
      if isSpaceC c then
        match rest'.dropWhile isSpaceC with
        | q :: rest3 =>
          if q == '\'' || q == '"' then scanCapture [] rest3 else none
        | [] => none
      else none

/-- Earliest position (the lazy `(?:[\s\S]*?)`) at which the `from ...;` tail
matches. -/
def findFromTail : List Char → Option (List Char × List Char)
  | [] => none
  | c :: rest =>
    match matchFromTail (c :: rest) with
    | some r => some r
    | none => findFromTail rest

/-- `re.findall` for the import pattern: scan left to right; a match needs
`import` followed by at least one whitespace character, then the earliest
completing `from ...;` tail; scanning resumes after each match. -/
def findImportsAux : Nat → List Char → List String
  | 0, _ => []
  | _, [] => []
  | fuel + 1, c :: rest =>
    match dropPrefixC ['i', 'm', 'p', 'o', 'r', 't'] (c :: rest) with
    | some (w :: rest2) =>
      if isSpaceC w then
        match findFromTail rest2 with
        | some (cap, remaining) => String.mk cap :: findImportsAux fuel remaining
        | none => findImportsAux fuel rest
      else findImportsAux fuel rest
    | _ => findImportsAux fuel rest

/-- All import specifiers extracted from raw text by `imp_pat`. -/
def re_findall_imports (s : String) : List String :=
  findImportsAux (s.data.length + 1) s.data

/-- The alternatives of `(?:class|function|const|let|var|interface|type|enum)`,
in source order. -/
def exportKeywords : List (List Char) :=
  ["class", "function", "const", "let", "var", "interface", "type", "enum"].map String.data

/-- `\s*([\w]+)`: skip whitespace, then capture a maximal nonempty word. -/
def exportFinish (cs : List Char) : Option (List Char × List Char) :=
  let cs1 := cs.dropWhile isSpaceC
  let word := cs1.takeWhile isWordC
  if word.isEmpty then none else some (word, cs1.dropWhile isWordC)

/-- The optional keyword group with backtracking: try each alternative in
order; on failure of the continuation fall through to the next alternative and
finally to the empty alternative. -/
def tryKeywords : List (List Char) → List Char → Option (List Char × List Char)
  | [], cs => exportFinish cs
  | kw :: kws, cs =>
    match dropPrefixC kw cs with
    | some rest =>
      match exportFinish rest with
      | some r => some r
      | none => tryKeywords kws cs
    | none => tryKeywords kws cs

/-- The optional `(?:default\s+)?` group with backtracking into the empty
alternative. -/
def tryDefault (cs : List Char) : Option (List Char × List Char) :=
  match dropPrefixC ['d', 'e', 'f', 'a', 'u', 'l', 't'] cs with
  | some (c :: rest) =>
    if isSpaceC c then
      match tryKeywords exportKeywords (rest.dropWhile isSpaceC) with
      | some r => some r
      | none => tryKeywords exportKeywords cs
    else tryKeywords exportKeywords cs
  | _ => tryKeywords exportKeywords cs

/-- `re.findall` for the export pattern. -/
def findExportsAux : Nat → List Char → List String
  | 0, _ => []
  | _, [] => []
  | fuel + 1, c :: rest =>
    match dropPrefixC ['e', 'x', 'p', 'o', 'r', 't'] (c :: rest) with
    | some (w :: rest2) =>
      if isSpaceC w then
        match tryDefault (rest2.dropWhile isSpaceC) with
        | some (word, remaining) => String.mk word :: findExportsAux fuel remaining
        | none => findExportsAux fuel rest
      else findExportsAux fuel rest
    | _ => findExportsAux fuel rest

/-- All exported identifiers extracted from raw text by `exp_pat`. -/
def re_findall_exports (s : String) : List String :=
  findExportsAux (s.data.length + 1) s.data

/-! ## DependencyFacts (`deps` records) -/

/-- A class entry of a structural summary: `{"name": ..., "methods": [...]}`. -/
structure PyClassInfo where
  name : String
  methods : List String
  deriving DecidableEq, Repr

/-- A structural summary: `{"language": ..., "functions": [...], "classes": [...]}`. -/
structure StructInfo where
  language : String
  functions : List String
  classes : List PyClassInfo
  deriving DecidableEq, Repr

/-- A per-file facts record: `{'imports': [...], 'exports': [...], 'structure': {...}}`.
`none` models the empty-dict structure of unsupported file types. -/
structure Deps where
  imports : List String
  exports : List String
  «structure» : Option StructInfo
  deriving DecidableEq, Repr

/-- The pure content-to-facts part of `extract_dependencies_ts` (after the
file has been read). -/
def extract_dependencies_ts_content (c : String) : Deps :=
  let imports := re_findall_imports c
  let exports := re_findall_exports c
  { imports := imports
    exports := exports
    «structure» := some { language := "typescript", functions := exports, classes := [] } }

/-- `extract_dependencies_ts`: the source performs `open(file_path).read()`
with no `try`/`except`, so a failing read (modelled as `none`) propagates as
an exception (modelled as `Except.error`). -/
def extract_dependencies_ts (mread : Option String) : Except String Deps :=
  match mread with
  | none => Except.error "read failure"
  | some c => Except.ok (extract_dependencies_ts_content c)

/-! ## Path utilities (the fragment of `os.path` the source uses, for
slash-separated root-relative paths) -/

/-- Split a character list at `'/'` separators (always returns at least one
component). -/
def splitOnSlash : List Char → List (List Char)
  | [] => [[]]
  | c :: rest =>
    let r := splitOnSlash rest
    if c = '/' then [] :: r
    else
      match r with
      | comp :: comps => (c :: comp) :: comps
      | [] => [[c]]

/-- Join components with `'/'`. -/
def joinComps : List (List Char) → List Char
  | [] => []
  | [comp] => comp
  | comp :: comps => comp ++ '/' :: joinComps comps

/-- The component loop of `posixpath.normpath` for relative paths:
drop `''` and `'.'`, let `'..'` pop a previous component unless there is none
or it is itself `'..'`. `acc` holds processed components in reverse. -/
def normComps (acc : List (List Char)) : List (List Char) → List (List Char)
  | [] => acc.reverse
  | comp :: rest =>
    if comp = [] || comp = ['.'] then normComps acc rest
    else if comp = ['.', '.'] then
      match acc with
      | [] => normComps [['.', '.']] rest
      | top :: accrest =>
        if top = ['.', '.'] then normComps (comp :: acc) rest else normComps accrest rest
    else normComps (comp :: acc) rest

/-- `os.path.normpath` for relative paths (the only paths the source builds:
root-relative files and specifiers joined to them). -/
def normpath (s : String) : String :=
  match normComps [] (splitOnSlash s.data) with
  | [] => "."
  | comps => String.mk (joinComps comps)

/-- `os.path.dirname` for slash-normalized relative paths: everything before
the last separator, `""` when there is none. -/
def dirname (s : String) : String :=
  match splitOnSlash s.data with
  | [] => ""
  | [_] => ""
  | comps => String.mk (joinComps comps.dropLast)

/-- The basename (last component) of a slash-separated path, as characters. -/
def basenameChars (cs : List Char) : List Char :=
  match (splitOnSlash cs).getLast? with
  | some comp => comp
  | none => []

/-- `os.path.join` for our use sites: an absolute or empty participant short-
circuits as in Python; otherwise concatenate with a single separator. -/
def pathJoin (base p : String) : String :=
  match p.data with
  | '/' :: _ => p
  | _ =>
    if base = "" then p
    else
      match base.data.getLast? with
      | some '/' => base ++ p
      | _ => base ++ "/" ++ p

/-- ASCII lowering (the extensions compared against are ASCII). -/
def asciiLowerC (c : Char) : Char :=
  if 65 ≤ c.toNat && c.toNat ≤ 90 then Char.ofNat (c.toNat + 32) else c

/-- The extension part of `os.path.splitext`: from the last dot of the
basename, unless the basename up to that dot is all dots. -/
def extOf (base : List Char) : List Char :=
  let rev := base.reverse
  let pre := rev.takeWhile (fun c => c ≠ '.')
  if pre.length = rev.length then []
  else
    let stem := (rev.drop (pre.length + 1)).reverse
    if stem.any (fun c => c ≠ '.') then '.' :: pre.reverse else []

/-- `os.path.splitext(p)[1].lower()`, as used for extension dispatch. -/
def extLower (p : String) : String :=
  String.mk ((extOf (basenameChars p.data)).map asciiLowerC)

example : extLower "a/b/file1.TS" = ".ts" := by decide
example : extLower "a/.env" = "" := by decide
example : extLower "noext" = "" := by decide
example : normpath "./file2" = "file2" := by decide
example : normpath "a/../b" = "b" := by decide
example : normpath "a/./b" = "a/b" := by decide
example : normpath "." = "." := by decide
example : dirname "a/b.ts" = "a" := by decide
example : dirname "b.ts" = "" := by decide
example : pathJoin "" "./file2" = "./file2" := by decide
example : pathJoin "a" "../b" = "a/../b" := by decide

/-! ## Filesystem oracle and the Import Resolver (`resolve_import_path`)

The resolver probes the real filesystem under `root_dir`
(`os.path.exists(os.path.join(root_dir, p))`, `os.path.isdir(...)`).  Probing
is modelled by a listing of the repository's root-relative file and directory
paths (normalized, slash-separated); a real filesystem answers existence
queries up to path normalization, which `FS.existsPath` reproduces. -/

structure FS where
  files : List String
  dirs : List String
  deriving Repr

/-- `os.path.exists(os.path.join(root_dir, p))`. -/
def FS.existsPath (fs : FS) (p : String) : Bool :=
  fs.files.contains (normpath p) || fs.dirs.contains (normpath p)

/-- `os.path.isdir(os.path.join(root_dir, p))`. -/
def FS.isdir (fs : FS) (p : String) : Bool :=
  fs.dirs.contains (normpath p)

/-- The supported extensions `['.ts', '.tsx', '.py']`. -/
def supportedExts : List String := [".ts", ".tsx", ".py"]

/-- The index-file probe list `['index.ts', 'index.tsx', '__init__.py']`. -/
def indexFiles : List String := ["index.ts", "index.tsx", "__init__.py"]

/-- `for e in exts: if os.path.exists(...): return candidate + e`. -/
def probeExts (fs : FS) (stem : String) : List String → Option String
  | [] => none
  | e :: es => if fs.existsPath (stem ++ e) then some (stem ++ e) else probeExts fs stem es

/-- `for pf in [...]: pfp = os.path.join(candidate, pf); if exists: return pfp`. -/
def probeIndexFiles (fs : FS) (cand : String) : List String → Option String
  | [] => none
  | pf :: pfs =>
    let pfp := pathJoin cand pf
    if fs.existsPath pfp then some pfp else probeIndexFiles fs cand pfs

/-- `imp.startswith('.')`. -/
def startsWithDot (s : String) : Bool :=
  match s.data with
  | '.' :: _ => true
  | _ => false

/-- `any(candidate.endswith(e) for e in exts)`. -/
def endsWithAnyExt (cand : String) : Bool :=
  supportedExts.any (fun e => e.data.isSuffixOf cand.data)

/-- `imp.replace('.', os.sep)`. -/
def replaceDotSep (s : String) : String :=
  String.mk (s.data.map (fun c => if c == '.' then '/' else c))

/-- `resolve_import_path(file, imp, root_dir)`; the filesystem oracle stands
for `root_dir`.  In the non-relative branch the source returns
`os.path.relpath(bc + e, root_dir)`, which for the probed path equals the
normalized root-relative path. -/
def resolve_import_path (fs : FS) (file imp : String) : String :=
  if startsWithDot imp then
    let base := dirname file
    let candidate := normpath (pathJoin base imp)
    if fs.isdir candidate then
      match probeIndexFiles fs candidate indexFiles with
      | some pfp => pfp
      | none => candidate
    else
      if !endsWithAnyExt candidate then
        match probeExts fs candidate supportedExts with
        | some r => r
        | none => candidate
      else candidate
  else
    let bc := replaceDotSep imp
    match probeExts fs bc supportedExts with
    | some r => normpath r
    | none => imp

/-! ## The Graph Builder (`build_dependency_graph`) -/

/-- A graph edge record. `objects = none` models the absence of the
`'objects'` key. -/
structure Edge where
  «from» : String
  «to» : Option String
  type : String
  objects : Option (List String)
  deriving DecidableEq, Repr

/-- `{'nodes': [...], 'edges': [...]}`. -/
structure Graph where
  nodes : List String
  edges : List Edge
  deriving DecidableEq, Repr

/-- Python `dict` assignment `d[k] = v`: overwrite in place, preserving the
key's original position, else append. -/
def dictInsert {β : Type} : List (String × β) → String → β → List (String × β)
  | [], k, v => [(k, v)]
  | (k', v') :: rest, k, v =>
    if k' = k then (k, v) :: rest else (k', v') :: dictInsert rest k v

/-- `d.get(k)`. -/
def dictGet {β : Type} (l : List (String × β)) (k : String) : Option β :=
  List.lookup k l

/-- The first loop of `build_dependency_graph`: over the (already
ignore-filtered) `os.walk` listing, keep files with a supported extension,
register each as a node on first sight, and record its extracted facts.
`extract` stands for `extract_dependencies` (extension dispatch embedded
separately); `walkFiles` lists root-relative paths with contents in walk
order. -/
def collect_pass (extract : String → String → Deps)
    (walkFiles : List (String × String)) : List String × List (String × Deps) :=
  walkFiles.foldl
    (fun acc fe =>
      if supportedExts.contains (extLower fe.1) then
        let nodes := if acc.1.contains fe.1 then acc.1 else acc.1 ++ [fe.1]
        (nodes, dictInsert acc.2 fe.1 (extract fe.1 fe.2))
      else acc)
    ([], [])

/-- The import-edge record appended by the second loop:
`{'from': file, 'to': target, 'type': 'import'}`, with
`edge['objects'] = deps['imports']` (the declaring file's whole import list)
unless the mode strips metadata. -/
def mkImportEdge (graph_type file target : String) (imps : List String) : Edge :=
  { «from» := file, «to» := some target, type := "import",
    objects := if graph_type != "no_objects" then some imps else none }

/-- The export-edge record appended by the second loop:
`{'from': file, 'to': None, 'type': 'export'}`, with
`edge['objects'] = deps['exports']` unless the mode strips metadata. -/
def mkExportEdge (graph_type file : String) (exps : List String) : Edge :=
  { «from» := file, «to» := none, type := "export",
    objects := if graph_type != "no_objects" then some exps else none }

/-- The second loop of `build_dependency_graph`: convert facts to edges.
Import edges only in `full`/`imports_only` modes and only when the resolved
target is a node; one export edge per file with nonempty exports in
`full`/`exports_only` modes. -/
def edges_pass (resolve : String → String → String) (graph_type : String)
    (nodes : List String) (fdeps : List (String × Deps)) : List Edge :=
  fdeps.foldl
    (fun edges fd =>
      let edges :=
        if graph_type == "full" || graph_type == "imports_only" then
          fd.2.imports.foldl
            (fun edges imp =>
              let target := resolve fd.1 imp
              if nodes.contains target then
                edges ++ [mkImportEdge graph_type fd.1 target fd.2.imports]
              else edges)
            edges
        else edges
      if (graph_type == "full" || graph_type == "exports_only") && !fd.2.exports.isEmpty then
        edges ++ [mkExportEdge graph_type fd.1 fd.2.exports]
      else edges)
    []

/-- `build_dependency_graph(root_dir, langs, graph_type, ...)`. -/
def build_dependency_graph (extract : String → String → Deps)
    (resolve : String → String → String) (walkFiles : List (String × String))
    (graph_type : String) : Graph × List (String × Deps) :=
  let np := collect_pass extract walkFiles
  ({ nodes := np.1, edges := edges_pass resolve graph_type np.1 np.2 }, np.2)

/-- The extension dispatch of `extract_dependencies` restricted to the
TypeScript family (`.ts`/`.tsx` by lowered extension; anything else yields
empty facts).  The `.py` branch goes through `ast.parse` and is embedded
separately over a syntax-tree model (`parse_python_structure` below); the
concrete repositories evaluated in the theorems contain only TypeScript
files, so this dispatcher is the one instantiated there. -/
def extract_dependencies_ts_dispatch (path content : String) : Deps :=
  let e := extLower path
  if e == ".ts" || e == ".tsx" then extract_dependencies_ts_content content
  else { imports := [], exports := [], «structure» := none }

example : re_findall_imports "import { func } from \"./file2\";\nexport const x = 1;" = ["./file2"] := by decide
example : re_findall_exports "import { func } from \"./file2\";\nexport const x = 1;" = ["x"] := by decide
example : re_findall_exports "export function func() {}" = ["func"] := by decide
example : re_findall_exports "export default foo" = ["foo"] := by decide
example : re_findall_imports "import a from './a'; import b from './b';" = ["./a", "./b"] := by decide

/-! ## The Fact Extractor's structural strategy (`parse_python_structure`)

The Python file is read and parsed with `ast.parse`; the resulting syntax tree
is the input here (re-implementing CPython's parser is out of scope; a parse
failure propagates uncaught in the source and is not claimed about).  Only
statement nodes can contain the node kinds the extractor reacts to
(`Import`, `ImportFrom`, `FunctionDef`, `ClassDef`), so the model keeps the
statement skeleton: any other compound statement (if/for/while/try/with, ...)
is `other` with its child statements, and expression subtrees (which can hold
no statements) are dropped.  `ast.walk` is breadth-first; the `Module` node it
yields first matches none of the `isinstance` branches and is omitted. -/

mutual
inductive PyStmt : Type where
  | importStmt (names : List String) : PyStmt
  | importFrom (module : Option String) (names : List String) : PyStmt
  | funcDef (name : String) (body : PyBody) : PyStmt
  | classDef (name : String) (body : PyBody) : PyStmt
  | other (children : PyBody) : PyStmt
inductive PyBody : Type where
  | nil : PyBody
  | cons (s : PyStmt) (rest : PyBody) : PyBody
end

def PyBody.toList : PyBody → List PyStmt
  | .nil => []
  | .cons s r => s :: r.toList

/-- `ast.iter_child_nodes`, restricted to statement children (the only
children that can be `Import`/`ImportFrom`/`FunctionDef`/`ClassDef`). -/
def pyChildren : PyStmt → List PyStmt
  | .importStmt _ => []
  | .importFrom _ _ => []
  | .funcDef _ b => b.toList
  | .classDef _ b => b.toList
  | .other b => b.toList

mutual
def pySize : PyStmt → Nat
  | .importStmt _ => 1
  | .importFrom _ _ => 1
  | .funcDef _ b => 1 + pyBodySize b
  | .classDef _ b => 1 + pyBodySize b
  | .other b => 1 + pyBodySize b
def pyBodySize : PyBody → Nat
  | .nil => 0
  | .cons s r => pySize s + pyBodySize r
end

def sizeQueue (q : List (PyStmt × Bool)) : Nat :=
  (q.map (fun p => pySize p.1)).sum

/-- `ast.walk` (breadth-first, a FIFO of pending nodes), with each node
tagged by whether its parent (per `add_ast_parents`) is the `Module`.
One node is emitted per step, so any fuel at least the total node count is
enough. -/
def pywalk : Nat → List (PyStmt × Bool) → List (PyStmt × Bool)
  | 0, _ => []
  | _, [] => []
  | fuel + 1, sb :: rest =>
    sb :: pywalk fuel (rest ++ (pyChildren sb.1).map (fun c => (c, false)))

/-- The direct function-valued members of a class body, in order
(`for b in node.body: if isinstance(b, ast.FunctionDef)`). -/
def directMethods (b : PyBody) : List String :=
  b.toList.filterMap (fun s =>
    match s with
    | .funcDef n _ => some n
    | _ => none)

/-- One iteration of the `for node in ast.walk(tree)` body, folding over
`(imports, functions, classes)`. -/
def pyProcess (acc : List String × List String × List PyClassInfo)
    (sb : PyStmt × Bool) : List String × List String × List PyClassInfo :=
  match sb.1 with
  | .importStmt names => (acc.1 ++ names, acc.2.1, acc.2.2)
  | .importFrom module names =>
    (acc.1 ++ names.map (fun n =>
        match module with
        | some m => if m ≠ "" then m ++ "." ++ n else n
        | none => n),
     acc.2.1, acc.2.2)
  | .funcDef name _ =>
    if sb.2 then (acc.1, acc.2.1 ++ [name], acc.2.2) else acc
  | .classDef name b =>
    (acc.1, acc.2.1, acc.2.2 ++ [{ name := name, methods := directMethods b }])
  | .other _ => acc

/-- `parse_python_structure` on a parsed module (list of top-level
statements): returns `(imports, exports, structure)`. -/
def parse_python_structure (mod : List PyStmt) : List String × List String × StructInfo :=
  let init := mod.map (fun s => (s, true))
  let walked := pywalk (sizeQueue init + 1) init
  let res := walked.foldl pyProcess ([], [], [])
  let exports := res.2.1 ++ res.2.2.map (fun c => c.name)
  (res.1, exports, { language := "python", functions := res.2.1, classes := res.2.2 })

/-! ## The Change Tracker (`update_cache_and_generate_diff`) -/

/-- The persisted snapshot: per-path hash entries (`{"hash": h}`) plus a run
timestamp. -/
structure Cache where
  files : List (String × String)
  timestamp : String
  deriving DecidableEq, Repr

/-- The change report, as the data serialized into `repindex_changes.md`:
changed/new paths each with a rendered diff (`none` models the
"no diff available" placeholder), and removed paths. -/
structure ChangeReport where
  changed : List (String × Option String)
  removed : List String
  deriving DecidableEq, Repr

/-- The observable outcome of one tracker run: the snapshot file's state
after the run, and the report written (if any). -/
structure TrackerRun where
  cache : Option Cache
  report : Option ChangeReport
  deriving DecidableEq, Repr

/-- Python `s.strip()` is truthy (some non-whitespace character remains). -/
def stripNonempty (s : String) : Bool :=
  s.data.any (fun c => !isSpaceC c)

/-- `update_cache_and_generate_diff(r, langs, no_ignore, outdir, no_cache,
skip_patterns)`.  `hash` stands for `compute_file_hash` (SHA-256 of the
UTF-8 bytes via `hashlib`, external), `diffFn` for `generate_diff`
(`difflib.unified_diff`, external), `now` for the run timestamp, and `walked`
for the ignore-filtered `os.walk` file listing with read results
(`none` = unreadable: warned and skipped).  `oldCache` is the parsed snapshot
file (`load_cache`: absent file gives the empty mapping).  With `no_cache`
the snapshot is deleted and the function returns before reading anything.
As in the source, the diff for a changed file compares the prior *content*
recorded for it — which the hash-only snapshot never holds, hence `""`. -/
def update_cache_and_generate_diff (hash : String → String)
    (diffFn : String → String → String) (now : String)
    (walked : List (String × Option String)) (oldCache : Option Cache)
    (no_cache : Bool) : TrackerRun :=
  if no_cache then { cache := none, report := none }
  else
    let old_files := match oldCache with
      | none => []
      | some c => c.files
    let current := walked.foldl
      (fun cur pc =>
        match pc.2 with
        | none => cur
        | some c => dictInsert cur pc.1 (hash c, c))
      []
    let changed := (current.filter
      (fun fd =>
        match List.lookup fd.1 old_files with
        | none => true
        | some oldh => oldh ≠ fd.2.1)).map (fun fd => fd.1)
    let removed := (old_files.map (fun fd => fd.1)).filter
      (fun f => !(current.map (fun fd => fd.1)).contains f)
    let report :=
      if !changed.isEmpty || !removed.isEmpty then
        some { changed := changed.map (fun f =>
                 let newc := match List.lookup f current with
                   | some hc => hc.2
                   | none => ""
                 let d := diffFn "" newc
                 (f, if stripNonempty d then some d else none)),
               removed := removed }
      else none
    { cache := some { files := current.map (fun fd => (fd.1, fd.2.1)), timestamp := now },
      report := report }

/-! ## The Context Collector (`gather_dependencies_for_files`) -/

/-- The recursion targets of one `dfs(f)` call: `e['to']` for each edge with
`e['from'] == f and e['type'] == 'import' and e['to']` (truthiness: neither
`None` nor `""`). -/
def succs (edges : List Edge) (f : String) : List String :=
  edges.filterMap (fun e =>
    if e.«from» == f && e.type == "import" then
      match e.«to» with
      | some t => if t ≠ "" then some t else none
      | none => none
    else none)

/-- The inner `dfs`: return if already involved, else add and recurse on each
matching edge target.  Python's recursion terminates because every proceeding
call strictly grows `involved`; the fuel passed by `gather_involved` is shown
sufficient in the theorems below. -/
def dfs (edges : List Edge) : Nat → List String → String → List String
  | 0, inv, _ => inv
  | fuel + 1, inv, f =>
    if inv.contains f then inv
    else (succs edges f).foldl (dfs edges fuel) (f :: inv)

/-- The involved-set computation of `gather_dependencies_for_files` over the
built full graph: `for tf in targets: if tf in g['nodes']: dfs(tf)`. -/
def gather_involved (g : Graph) (targets : List String) : List String :=
  targets.foldl
    (fun inv tf =>
      if g.nodes.contains tf then dfs g.edges (g.edges.length + targets.length + 1) inv tf
      else inv)
    []

/-- `gather_dependencies_for_files(r, langs, no_ignore, targets, skip_patterns)`. -/
def gather_dependencies_for_files (extract : String → String → Deps)
    (resolve : String → String → String) (walkFiles : List (String × String))
    (targets : List String) : List String × List (String × Deps) :=
  let gf := build_dependency_graph extract resolve walkFiles "full"
  (gather_involved gf.1 targets, gf.2)

/-! ## The tree-order file collector (`collect_all_files_in_tree_order`) and
the single-document generator's dependency lookup

The directory tree is modelled explicitly; `os.listdir` order is arbitrary
and the source sorts it (`sorted(os.listdir(root_dir))`), modelled by an
insertion sort on entry names.  `ignore` stands for `should_ignore` applied
to the joined path (rooted at the collector's top `root_dir`, as in the
source). -/

mutual
inductive FSTree : Type where
  | file (name : String) : FSTree
  | dir (name : String) (entries : FSEntries) : FSTree
inductive FSEntries : Type where
  | nil : FSEntries
  | cons (t : FSTree) (rest : FSEntries) : FSEntries
end

def FSEntries.toList : FSEntries → List FSTree
  | .nil => []
  | .cons t r => t :: r.toList

def treeName : FSTree → String
  | .file n => n
  | .dir n _ => n

mutual
def treeSize : FSTree → Nat
  | .file _ => 1
  | .dir _ sub => 1 + entriesSize sub
def entriesSize : FSEntries → Nat
  | .nil => 0
  | .cons t r => treeSize t + entriesSize r
end

def forestSize (l : List FSTree) : Nat := (l.map treeSize).sum

/-- Python string `<=`: lexicographic by code point. -/
def charListLe : List Char → List Char → Bool
  | [], _ => true
  | _ :: _, [] => false
  | a :: as, b :: bs =>
    if a.toNat < b.toNat then true
    else if b.toNat < a.toNat then false
    else charListLe as bs

def nameLe (s t : String) : Bool := charListLe s.data t.data

/-- Insertion into a name-sorted list. -/
def insertByName (t : FSTree) : List FSTree → List FSTree
  | [] => [t]
  | u :: us => if nameLe (treeName t) (treeName u) then t :: u :: us else u :: insertByName t us

/-- `sorted(os.listdir(root_dir))` on an arbitrarily ordered listing. -/
def sortEntries (l : List FSTree) : List FSTree := l.foldr insertByName []

/-- The body of `collect_all_files_in_tree_order`: recursion depth is bounded
by the forest size, so the fuel passed below is sufficient.  A file entry
contributes `os.path.relpath(os.path.join(root_dir, e), root_dir)`, i.e. its
bare name `e`; a directory's recursive result is extended unchanged. -/
def collectAux (ignore : String → Bool) : Nat → String → List FSTree → List String
  | 0, _, _ => []
  | fuel + 1, rootPath, entries =>
    (sortEntries entries).foldl
      (fun result t =>
        let p := pathJoin rootPath (treeName t)
        if ignore p then result
        else
          match t with
          | .file n => result ++ [n]
          | .dir _ sub => result ++ collectAux ignore fuel p sub.toList)
      []

/-- `collect_all_files_in_tree_order(root_dir, langs, no_ignore, skip_patterns)`. -/
def collect_all_files_in_tree_order (ignore : String → Bool) (rootPath : String)
    (entries : List FSTree) : List String :=
  collectAux ignore (forestSize entries + 1) rootPath entries

/-- Root-relative join used by the reference listing below. -/
def relJoin (rel n : String) : String := if rel = "" then n else rel ++ "/" ++ n

/-- Reference listing: the same traversal producing each file's path relative
to the *top* root (what `generate_single_context_markdown`'s `file_deps` keys
are). -/
def fullPathsAux (ignore : String → Bool) : Nat → String → String → List FSTree → List String
  | 0, _, _, _ => []
  | fuel + 1, rootPath, rel, entries =>
    (sortEntries entries).foldl
      (fun result t =>
        let p := pathJoin rootPath (treeName t)
        if ignore p then result
        else
          match t with
          | .file n => result ++ [relJoin rel n]
          | .dir n sub => result ++ fullPathsAux ignore fuel p (relJoin rel n) sub.toList)
      []

def fullPaths (ignore : String → Bool) (rootPath : String) (entries : List FSTree) : List String :=
  fullPathsAux ignore (forestSize entries + 1) rootPath "" entries

/-- The basename (string form). -/
def basenameStr (s : String) : String := String.mk (basenameChars s.data)

mutual
def treeNameOk : FSTree → Bool
  | .file n => !n.data.contains '/'
  | .dir n sub => !n.data.contains '/' && entriesNamesOk sub
def entriesNamesOk : FSEntries → Bool
  | .nil => true
  | .cons t r => treeNameOk t && entriesNamesOk r
end

def forestNamesOk (l : List FSTree) : Bool := l.all treeNameOk

/-- The per-file dependency data serialized by
`generate_single_context_markdown`'s "Indexed Files" loop:
`deps = file_deps.get(fpath, {}); imports = deps.get('imports', [])`, with
"**Dependencies**: None" written exactly when `imports` is empty. -/
def single_doc_dependency_entries (file_deps : List (String × Deps))
    (all_files : List String) : List (String × List String) :=
  all_files.map (fun f =>
    (f, match dictGet file_deps f with
        | some d => d.imports
        | none => []))

/-! ## Reference (specification-side) definitions

These restate properties in the spec's vocabulary, independently of the loop
structure of the embedded source functions; the theorems connect the two. -/

/-- The edges one `(file, deps)` entry contributes, as a flat list. -/
def edgesForFile (resolve : String → String → String) (graph_type : String)
    (nodes : List String) (file : String) (deps : Deps) : List Edge :=
  (if graph_type == "full" || graph_type == "imports_only" then
    deps.imports.filterMap (fun imp =>
      let target := resolve file imp
      if nodes.contains target then some (mkImportEdge graph_type file target deps.imports)
      else none)
  else [])
  ++ (if (graph_type == "full" || graph_type == "exports_only") && !deps.exports.isEmpty then
        [mkExportEdge graph_type file deps.exports]
      else [])

/-- The import specifiers of an edge's declaring file that resolve to the
edge's target — what the spec says an import edge's `objects` holds. -/
def producingSpecifiers (resolve : String → String → String)
    (fdeps : List (String × Deps)) (e : Edge) : List String :=
  match dictGet fdeps e.«from», e.«to» with
  | some d, some t => d.imports.filter (fun imp => resolve e.«from» imp == t)
  | _, _ => []

/-- The predicate picking out the export edge(s) a given file contributed. -/
def isExportEdgeFrom (file : String) (e : Edge) : Bool :=
  e.type == "export" && e.«from» == file

/-- Names of functions defined at module top level, in declaration order. -/
def topLevelFuncNames (mod : List PyStmt) : List String :=
  mod.filterMap (fun s =>
    match s with
    | .funcDef n _ => some n
    | _ => none)

/-- Classes defined at module top level, with their directly-defined
function-valued members, in declaration order. -/
def topLevelClasses (mod : List PyStmt) : List PyClassInfo :=
  mod.filterMap (fun s =>
    match s with
    | .classDef n b => some { name := n, methods := directMethods b }
    | _ => none)

mutual
/-- Every class definition in a statement's subtree (any nesting depth),
pre-order. -/
def allClassesStmt : PyStmt → List PyClassInfo
  | .importStmt _ => []
  | .importFrom _ _ => []
  | .funcDef _ b => allClassesBody b
  | .classDef n b => { name := n, methods := directMethods b } :: allClassesBody b
  | .other b => allClassesBody b
def allClassesBody : PyBody → List PyClassInfo
  | .nil => []
  | .cons s r => allClassesStmt s ++ allClassesBody r
end

/-- Every class definition anywhere in a module. -/
def allClasses (mod : List PyStmt) : List PyClassInfo :=
  mod.flatMap allClassesStmt

mutual
/-- Depth-first pre-order listing of a statement's subtree. -/
def dfsOrderStmt : PyStmt → List PyStmt
  | .importStmt ns => [.importStmt ns]
  | .importFrom m ns => [.importFrom m ns]
  | .funcDef n b => .funcDef n b :: dfsOrderBody b
  | .classDef n b => .classDef n b :: dfsOrderBody b
  | .other b => .other b :: dfsOrderBody b
def dfsOrderBody : PyBody → List PyStmt
  | .nil => []
  | .cons s r => dfsOrderStmt s ++ dfsOrderBody r
end

/-- The class record one walked node contributes (any `ClassDef`, regardless
of nesting — the source has no parent check in this branch). -/
def classEntry : PyStmt → Option PyClassInfo
  | .classDef n b => some { name := n, methods := directMethods b }
  | _ => none

/-- The function name one walked node contributes (a `FunctionDef` whose
parent is the `Module`). -/
def funcNameTop : PyStmt × Bool → Option String
  | (.funcDef n _, true) => some n
  | _ => none

/-- The import facts one walked node contributes. -/
def importNamesOf : PyStmt → List String
  | .importStmt ns => ns
  | .importFrom m ns =>
    ns.map (fun n =>
      match m with
      | some mm => if mm ≠ "" then mm ++ "." ++ n else n
      | none => n)
  | _ => []

/-- Reachability along import edges with a truthy target (the relation the
Context Collector is specified to compute). -/
inductive Reach (edges : List Edge) : String → String → Prop where
  | refl (f : String) : Reach edges f f
  | head {f g x : String} : g ∈ succs edges f → Reach edges g x → Reach edges f x

/-- The prior snapshot's file-to-hash mapping (`load_cache`: empty when the
snapshot file is absent). -/
def oldFilesOf : Option Cache → List (String × String)
  | none => []
  | some c => c.files

/-- The hash-only file map of one walk (what a snapshot persists). -/
def snapshotOf (hash : String → String) (walked : List (String × Option String)) :
    List (String × String) :=
  walked.foldl
    (fun cur pc =>
      match pc.2 with
      | none => cur
      | some c => dictInsert cur pc.1 (hash c))
    []

/-- The transient current-file map of one tracker walk (hash and content per
successfully read path) — the `current` dict of
`update_cache_and_generate_diff`. -/
def trackerCurrent (hash : String → String) (walked : List (String × Option String)) :
    List (String × (String × String)) :=
  walked.foldl
    (fun cur pc =>
      match pc.2 with
      | none => cur
      | some c => dictInsert cur pc.1 (hash c, c))
    []

/-! ## Concrete repositories used by the theorems -/

/-- `file1.ts` of the spec's scenario. -/
def file1Content : String := "import { func } from \"./file2\";\nexport const x = 1;"

/-- `file2.ts` of the spec's scenario. -/
def file2Content : String := "export function func() {}"

/-- The scenario repository's filesystem. -/
def scenarioFS : FS := { files := ["file1.ts", "file2.ts"], dirs := [] }

/-- The scenario repository's walk listing. -/
def scenarioWalk : List (String × String) :=
  [("file1.ts", file1Content), ("file2.ts", file2Content)]

def scenarioResolve : String → String → String := resolve_import_path scenarioFS

/-- A repository where one file has two imports resolving to two distinct
targets. -/
def twoImportsWalk : List (String × String) :=
  [("a.ts", "import { f } from \"./b\";\nimport { g } from \"./c\";\n"),
   ("b.ts", "export function f() {}"),
   ("c.ts", "export function g() {}")]

def twoImportsFS : FS := { files := ["a.ts", "b.ts", "c.ts"], dirs := [] }

def twoImportsResolve : String → String → String := resolve_import_path twoImportsFS

/-- A module with a class nested inside a top-level class. -/
def nestedClassMod : List PyStmt :=
  [PyStmt.classDef "Outer" (PyBody.cons (PyStmt.classDef "Inner" PyBody.nil) PyBody.nil)]

/-- Import-only edge helper for the Context Collector examples. -/
def impEdge (a b : String) : Edge :=
  { «from» := a, «to» := some b, type := "import", objects := none }

/-- The chain `A → B → C` of the spec's Context Collector example. -/
def chainGraph : Graph :=
  { nodes := ["A", "B", "C"], edges := [impEdge "A" "B", impEdge "B" "C"] }

/-- The cycle `A → B → A` of the spec's Context Collector example. -/
def cycleGraph : Graph :=
  { nodes := ["A", "B"], edges := [impEdge "A" "B", impEdge "B" "A"] }

/-- A directory tree with `b.ts` at the root and another `b.ts` inside
subdirectory `a/`. -/
def collisionTree : List FSTree :=
  [FSTree.dir "a" (FSEntries.cons (FSTree.file "b.ts") FSEntries.nil), FSTree.file "b.ts"]

/-- The walk listing of `collisionTree` (root files listed first by
`os.walk`). -/
def collisionWalk : List (String × String) :=
  [("b.ts", "import { f } from \"./x\";"), ("a/b.ts", "export const y = 1;")]

def collisionFS : FS := { files := ["b.ts", "a/b.ts"], dirs := ["a"] }

def noIgnoreP : String → Bool := fun _ => false

/-- A filesystem for exercising the resolver: package directory `pkg` with an
index file and a module file. -/
def resolverFS : FS := { files := ["pkg/mod.py", "pkg/index.ts"], dirs := ["pkg"] }

/-! # Theorems -/

/-! ## Helper lemmas about the Graph Builder's second pass -/

lemma foldl_append_of_step {α : Type} (f : List Edge → α → List Edge)
    (g : α → List Edge) (hf : ∀ acc x, f acc x = acc ++ g x) :
    ∀ (l : List α) (acc : List Edge), List.foldl f acc l = acc ++ l.flatMap g := by
  intro l
  induction l with
  | nil => intro acc; simp
  | cons x rest ih =>
    intro acc
    rw [List.foldl_cons, hf, ih, List.flatMap_cons, List.append_assoc]

lemma flatMap_if_singleton {α : Type} (p : α → Bool) (g : α → Edge) :
    ∀ l : List α,
      (l.flatMap fun x => if p x then [g x] else [])
        = l.filterMap (fun x => if p x then some (g x) else none) := by
  intro l
  induction l with
  | nil => rfl
  | cons x rest ih => by_cases h : p x <;> simp [h, ih]

lemma foldl_import_edges (resolve : String → String → String) (gt : String)
    (nodes : List String) (file : String) (imps : List String) (l : List String)
    (acc : List Edge) :
    List.foldl
      (fun edges imp =>
        let target := resolve file imp
        if nodes.contains target then edges ++ [mkImportEdge gt file target imps] else edges)
      acc l
    = acc ++ l.filterMap (fun imp =>
        let target := resolve file imp
        if nodes.contains target then some (mkImportEdge gt file target imps) else none) := by
  rw [foldl_append_of_step _
    (fun imp =>
      if nodes.contains (resolve file imp) then [mkImportEdge gt file (resolve file imp) imps]
      else []),
    flatMap_if_singleton]
  intro acc' imp
  dsimp only
  by_cases h : nodes.contains (resolve file imp) = true
  · rw [if_pos h, if_pos h]
  · rw [if_neg h, if_neg h, List.append_nil]

lemma edges_pass_step (resolve : String → String → String) (gt : String)
    (nodes : List String) (acc : List Edge) (fd : String × Deps) :
    (let edges :=
      if gt == "full" || gt == "imports_only" then
        List.foldl
          (fun edges imp =>
            let target := resolve fd.1 imp
            if nodes.contains target then edges ++ [mkImportEdge gt fd.1 target fd.2.imports]
            else edges)
          acc fd.2.imports
      else acc
    if (gt == "full" || gt == "exports_only") && !fd.2.exports.isEmpty then
      edges ++ [mkExportEdge gt fd.1 fd.2.exports]
    else edges)
    = acc ++ edgesForFile resolve gt nodes fd.1 fd.2 := by
  dsimp only [edgesForFile]
  by_cases h1 : (gt == "full" || gt == "imports_only") = true
  · rw [if_pos h1, if_pos h1, foldl_import_edges]
    by_cases h2 : ((gt == "full" || gt == "exports_only") && !fd.2.exports.isEmpty) = true
    · rw [if_pos h2, if_pos h2, List.append_assoc]
    · rw [if_neg h2, if_neg h2, List.append_nil]
  · rw [if_neg h1, if_neg h1, List.nil_append]
    by_cases h2 : ((gt == "full" || gt == "exports_only") && !fd.2.exports.isEmpty) = true
    · rw [if_pos h2, if_pos h2]
    · rw [if_neg h2, if_neg h2, List.append_nil]

lemma edges_pass_eq_flatMap (resolve : String → String → String) (gt : String)
    (nodes : List String) (fdeps : List (String × Deps)) :
    edges_pass resolve gt nodes fdeps
      = fdeps.flatMap (fun fd => edgesForFile resolve gt nodes fd.1 fd.2) := by
  rw [edges_pass,
    foldl_append_of_step _ (fun fd => edgesForFile resolve gt nodes fd.1 fd.2)
      (fun acc fd => edges_pass_step resolve gt nodes acc fd),
    List.nil_append]

lemma edges_pass_no_objects (resolve : String → String → String) (nodes : List String)
    (fdeps : List (String × Deps)) :
    edges_pass resolve "no_objects" nodes fdeps = [] := by
  rw [edges_pass_eq_flatMap]
  apply List.flatMap_eq_nil_iff.mpr
  intro fd _
  simp [edgesForFile]

/-! ## C1 -/

/-- C1: the spec claims the `no_objects` projection keeps exactly the edges of
`full` mode, merely omitting each edge's `objects` field.  In the code the
mode lists at the top of the second pass (`['full', 'imports_only']`,
`['full', 'exports_only']`) do not include `'no_objects'`, so that mode
produces no edges at all (making the inner `graph_type != 'no_objects'`
metadata guard dead code): for every input the `no_objects` build has an
empty edge list, while on the spec's own two-file scenario the `full` build
has three edges (nodes agree). -/
theorem C1_no_objects_mode_produces_no_edges :
    (∀ (extract : String → String → Deps) (resolve : String → String → String)
        (walkFiles : List (String × String)),
      (build_dependency_graph extract resolve walkFiles "no_objects").1.edges = [])
    ∧ (build_dependency_graph extract_dependencies_ts_dispatch scenarioResolve scenarioWalk
          "no_objects").1.nodes
        = (build_dependency_graph extract_dependencies_ts_dispatch scenarioResolve scenarioWalk
          "full").1.nodes
    ∧ (build_dependency_graph extract_dependencies_ts_dispatch scenarioResolve scenarioWalk
          "full").1.edges
        = [mkImportEdge "full" "file1.ts" "file2.ts" ["./file2"],
           mkExportEdge "full" "file1.ts" ["x"],
           mkExportEdge "full" "file2.ts" ["func"]] :=
  ⟨fun extract resolve walkFiles => edges_pass_no_objects resolve _ _,
   by decide, by decide⟩

/-! ## C3 -/

/-- C3 (counterexample): a read failure in the TypeScript-family extractor
does not degrade to empty facts — the `open`/`read` is not wrapped in any
`try`, so the error propagates. -/
theorem C3_read_failure_propagates :
    extract_dependencies_ts none = Except.error "read failure" := rfl

/-- C3 (amended): the pattern-matching extractor succeeds exactly when the
file read succeeds; a read failure aborts the invocation with an uncaught
error rather than yielding empty facts (only the extension dispatcher's
unsupported-extension branch yields empty facts). -/
theorem C3_extractor_ok_iff_read_ok (mread : Option String) :
    (extract_dependencies_ts mread).isOk = mread.isSome := by
  cases mread <;> rfl

/-! ## Dictionary lemmas -/

lemma mem_keys_dictInsert {β : Type} (k : String) (v : β) (x : String) :
    ∀ l : List (String × β),
      x ∈ (dictInsert l k v).map Prod.fst ↔ x ∈ l.map Prod.fst ∨ x = k := by
  intro l
  induction l with
  | nil => simp [dictInsert]
  | cons p rest ih =>
    obtain ⟨k', v'⟩ := p
    by_cases h : k' = k
    · subst h
      simp [dictInsert]
      tauto
    · simp [dictInsert, h, ih]
      tauto

lemma keys_nodup_dictInsert {β : Type} (k : String) (v : β) :
    ∀ l : List (String × β), (l.map Prod.fst).Nodup → ((dictInsert l k v).map Prod.fst).Nodup := by
  intro l
  induction l with
  | nil => intro _; simp [dictInsert]
  | cons p rest ih =>
    obtain ⟨k', v'⟩ := p
    intro hnd
    simp only [List.map_cons, List.nodup_cons] at hnd
    by_cases h : k' = k
    · subst h
      simpa [dictInsert] using hnd
    · simp only [dictInsert, if_neg h, List.map_cons, List.nodup_cons]
      refine ⟨fun hc => ?_, ih hnd.2⟩
      rcases (mem_keys_dictInsert k v k' rest).mp hc with h1 | h1
      · exact hnd.1 h1
      · exact h h1

lemma lookup_of_mem_of_nodup {β : Type} {k : String} {v : β} :
    ∀ {l : List (String × β)}, (l.map Prod.fst).Nodup → (k, v) ∈ l →
      List.lookup k l = some v := by
  intro l
  induction l with
  | nil => intro _ hm; simp at hm
  | cons p rest ih =>
    obtain ⟨k', v'⟩ := p
    intro hnd hm
    simp only [List.map_cons, List.nodup_cons] at hnd
    rcases List.mem_cons.mp hm with h | h
    · rw [Prod.mk.injEq] at h
      obtain ⟨rfl, rfl⟩ := h
      simp [List.lookup]
    · have hk : (k == k') = false := by
        apply beq_eq_false_iff_ne.mpr
        intro he
        subst he
        exact hnd.1 (List.mem_map.mpr ⟨(k, v), h, rfl⟩)
      simp [List.lookup, hk]
      exact ih hnd.2 h

lemma mem_of_lookup_eq_some {β : Type} {k : String} {v : β} :
    ∀ {l : List (String × β)}, List.lookup k l = some v → (k, v) ∈ l := by
  intro l
  induction l with
  | nil => intro h; simp [List.lookup] at h
  | cons p rest ih =>
    obtain ⟨k', v'⟩ := p
    intro h
    cases hk : (k == k') with
    | true =>
      have : v' = v := by simpa [List.lookup, hk] using h
      subst this
      exact List.mem_cons.mpr (Or.inl (by rw [eq_of_beq hk]))
    | false =>
      refine List.mem_cons.mpr (Or.inr (ih ?_))
      simpa [List.lookup, hk] using h

lemma collect_pass_keys_nodup (extract : String → String → Deps)
    (walkFiles : List (String × String)) :
    (((collect_pass extract walkFiles).2).map Prod.fst).Nodup := by
  suffices h : ∀ (wf : List (String × String)) (acc : List String × List (String × Deps)),
      (acc.2.map Prod.fst).Nodup →
      ((List.foldl
        (fun acc fe =>
          if supportedExts.contains (extLower fe.1) then
            let nodes := if acc.1.contains fe.1 then acc.1 else acc.1 ++ [fe.1]
            (nodes, dictInsert acc.2 fe.1 (extract fe.1 fe.2))
          else acc)
        acc wf).2.map Prod.fst).Nodup by
    exact h walkFiles ([], []) (by simp)
  intro wf
  induction wf with
  | nil => intro acc h; exact h
  | cons fe rest ih =>
    intro acc h
    rw [List.foldl_cons]
    refine ih _ ?_
    by_cases hs : supportedExts.contains (extLower fe.1) = true
    · rw [if_pos hs]
      exact keys_nodup_dictInsert fe.1 (extract fe.1 fe.2) acc.2 h
    · rw [if_neg hs]
      exact h

/-! ## Structure of the edges contributed per file -/

lemma mem_import_part {resolve : String → String → String} {gt : String}
    {nodes : List String} {file : String} {imps : List String} {e : Edge}
    (he : e ∈ imps.filterMap (fun imp =>
      let target := resolve file imp
      if nodes.contains target then some (mkImportEdge gt file target imps) else none)) :
    ∃ imp ∈ imps, nodes.contains (resolve file imp) = true
      ∧ e = mkImportEdge gt file (resolve file imp) imps := by
  rcases List.mem_filterMap.mp he with ⟨imp, hmem, heq⟩
  by_cases h : nodes.contains (resolve file imp) = true
  · refine ⟨imp, hmem, h, ?_⟩
    simp only [if_pos h] at heq
    exact (Option.some.inj heq).symm
  · simp only [if_neg h] at heq
    exact absurd heq (by simp)

lemma mem_edgesForFile {resolve : String → String → String} {gt : String}
    {nodes : List String} {file : String} {deps : Deps} {e : Edge}
    (he : e ∈ edgesForFile resolve gt nodes file deps) :
    (∃ imp ∈ deps.imports, nodes.contains (resolve file imp) = true
      ∧ e = mkImportEdge gt file (resolve file imp) deps.imports)
    ∨ e = mkExportEdge gt file deps.exports := by
  rcases List.mem_append.mp he with h | h
  · by_cases h1 : (gt == "full" || gt == "imports_only") = true
    · rw [if_pos h1] at h
      exact Or.inl (mem_import_part h)
    · rw [if_neg h1] at h
      simp at h
  · by_cases h2 : ((gt == "full" || gt == "exports_only") && !deps.exports.isEmpty) = true
    · rw [if_pos h2] at h
      exact Or.inr (List.mem_singleton.mp h)
    · rw [if_neg h2] at h
      simp at h

lemma filter_edgesForFile_ne {resolve : String → String → String} {gt : String}
    {nodes : List String} {f file : String} {d : Deps} (hne : f ≠ file) :
    (edgesForFile resolve gt nodes f d).filter (isExportEdgeFrom file) = [] := by
  apply List.filter_eq_nil_iff.mpr
  intro e he
  rcases mem_edgesForFile he with ⟨imp, _, _, rfl⟩ | rfl
  · simp [isExportEdgeFrom, mkImportEdge]
  · simp [isExportEdgeFrom, mkExportEdge, hne]

lemma filter_edgesForFile_self {resolve : String → String → String} {gt : String}
    {nodes : List String} {file : String} {deps : Deps}
    (hgt : (gt == "full" || gt == "exports_only") = true) (hne : deps.exports ≠ []) :
    (edgesForFile resolve gt nodes file deps).filter (isExportEdgeFrom file)
      = [mkExportEdge gt file deps.exports] := by
  rw [edgesForFile, List.filter_append]
  have h1 : ∀ l : List Edge,
      (∀ e ∈ l, e ∈ deps.imports.filterMap (fun imp =>
        let target := resolve file imp
        if nodes.contains target then some (mkImportEdge gt file target deps.imports)
        else none)) →
      l.filter (isExportEdgeFrom file) = [] := by
    intro l hl
    apply List.filter_eq_nil_iff.mpr
    intro e he
    rcases mem_import_part (hl e he) with ⟨imp, _, _, rfl⟩
    simp [isExportEdgeFrom, mkImportEdge]
  have himp : (if gt == "full" || gt == "imports_only" then
      deps.imports.filterMap (fun imp =>
        let target := resolve file imp
        if nodes.contains target then some (mkImportEdge gt file target deps.imports)
        else none)
    else []).filter (isExportEdgeFrom file) = [] := by
    by_cases hc : (gt == "full" || gt == "imports_only") = true
    · rw [if_pos hc]
      exact h1 _ (fun e he => he)
    · rw [if_neg hc]
      rfl
  rw [himp, List.nil_append]
  have hcond : ((gt == "full" || gt == "exports_only") && !deps.exports.isEmpty) = true := by
    rw [hgt, Bool.true_and, Bool.not_eq_true']
    simpa using hne
  rw [if_pos hcond]
  simp [isExportEdgeFrom, mkExportEdge]

lemma filter_export_flatMap {resolve : String → String → String} {gt : String}
    {nodes : List String} {file : String} {deps : Deps}
    (hgt : (gt == "full" || gt == "exports_only") = true) (hne : deps.exports ≠ []) :
    ∀ fdeps : List (String × Deps), (fdeps.map Prod.fst).Nodup →
      List.lookup file fdeps = some deps →
      ((fdeps.flatMap fun fd => edgesForFile resolve gt nodes fd.1 fd.2).filter
        (isExportEdgeFrom file)) = [mkExportEdge gt file deps.exports] := by
  intro fdeps
  induction fdeps with
  | nil => intro _ h; simp [List.lookup] at h
  | cons fd rest ih =>
    obtain ⟨k, d⟩ := fd
    intro hnd hlk
    simp only [List.map_cons, List.nodup_cons] at hnd
    rw [List.flatMap_cons, List.filter_append]
    cases hbeq : (file == k) with
    | true =>
      have hk : file = k := eq_of_beq hbeq
      subst hk
      have hd : d = deps := by simpa [List.lookup, hbeq] using hlk
      subst hd
      rw [filter_edgesForFile_self hgt hne]
      have hrest : ((rest.flatMap fun fd => edgesForFile resolve gt nodes fd.1 fd.2).filter
          (isExportEdgeFrom file)) = [] := by
        apply List.filter_eq_nil_iff.mpr
        intro e he
        rcases List.mem_flatMap.mp he with ⟨fd', hfd', hin⟩
        have hne' : fd'.1 ≠ file := by
          intro h
          exact hnd.1 (h ▸ List.mem_map.mpr ⟨fd', hfd', rfl⟩)
        rcases mem_edgesForFile hin with ⟨_, _, _, rfl⟩ | rfl
        · simp [isExportEdgeFrom, mkImportEdge]
        · simp [isExportEdgeFrom, mkExportEdge, hne']
      rw [hrest, List.append_nil]
    | false =>
      have hne2 : k ≠ file := by
        intro h
        subst h
        simp at hbeq
      rw [filter_edgesForFile_ne hne2, List.nil_append]
      refine ih hnd.2 ?_
      simpa [List.lookup, hbeq] using hlk

/-! ## C2 -/

/-- C2 (counterexample): in a repository where `a.ts` has two imports
resolving to two distinct targets, the import edge `a.ts → b.ts` carries the
file's *whole* import list `["./b", "./c"]`, not just the specifier `"./b"`
that produced it — refuting "the edge's objects list contains exactly
the import specifiers that produced that edge". -/
theorem C2_objects_not_restricted_to_producing_specifiers :
    ¬ (∀ e ∈ (build_dependency_graph extract_dependencies_ts_dispatch twoImportsResolve
          twoImportsWalk "full").1.edges,
        e.type = "import" →
        e.objects = some (producingSpecifiers twoImportsResolve
          (build_dependency_graph extract_dependencies_ts_dispatch twoImportsResolve
            twoImportsWalk "full").2 e)) := by
  decide

/-- C2 (amended): every materialized import edge's `objects` field carries the
declaring file's complete import-specifier list (not only the specifiers
resolving to the edge's target); on the spec's scenario — where `file1.ts` has
a single import — the full-mode graph is exactly as the claim describes. -/
theorem C2_import_edge_objects_are_declaring_files_import_list :
    (∀ (extract : String → String → Deps) (resolve : String → String → String)
        (walkFiles : List (String × String)) (gt : String),
      gt = "full" ∨ gt = "imports_only" →
      ∀ e ∈ (build_dependency_graph extract resolve walkFiles gt).1.edges,
        e.type = "import" →
        ∃ deps,
          dictGet (build_dependency_graph extract resolve walkFiles gt).2 e.«from» = some deps
          ∧ e.objects = some deps.imports)
    ∧ (build_dependency_graph extract_dependencies_ts_dispatch scenarioResolve scenarioWalk
        "full").1
      = { nodes := ["file1.ts", "file2.ts"],
          edges := [mkImportEdge "full" "file1.ts" "file2.ts" ["./file2"],
                    mkExportEdge "full" "file1.ts" ["x"],
                    mkExportEdge "full" "file2.ts" ["func"]] } := by
  constructor
  · intro extract resolve walkFiles gt hgt e hmem htype
    have hnodup := collect_pass_keys_nodup extract walkFiles
    have hmem' : e ∈ edges_pass resolve gt (collect_pass extract walkFiles).1
        (collect_pass extract walkFiles).2 := hmem
    rw [edges_pass_eq_flatMap] at hmem'
    rcases List.mem_flatMap.mp hmem' with ⟨fd, hfd, hin⟩
    rcases mem_edgesForFile hin with ⟨imp, _, _, rfl⟩ | rfl
    · refine ⟨fd.2, ?_, ?_⟩
      · exact lookup_of_mem_of_nodup hnodup (by simpa using hfd)
      · rcases hgt with rfl | rfl <;> rfl
    · rcases hgt with rfl | rfl <;> simp [mkExportEdge] at htype
  · decide

/-- C2 witness: the general statement applied to the scenario's import edge. -/
theorem C2_import_edge_objects_witness :
    ∃ deps,
      dictGet (build_dependency_graph extract_dependencies_ts_dispatch scenarioResolve
          scenarioWalk "full").2
        (mkImportEdge "full" "file1.ts" "file2.ts" ["./file2"]).«from» = some deps
      ∧ (mkImportEdge "full" "file1.ts" "file2.ts" ["./file2"]).objects = some deps.imports :=
  C2_import_edge_objects_are_declaring_files_import_list.1
    extract_dependencies_ts_dispatch scenarioResolve scenarioWalk "full" (Or.inl rfl)
    (mkImportEdge "full" "file1.ts" "file2.ts" ["./file2"]) (by decide) rfl

/-! ## C4 -/

/-- C4: in every graph build an import edge is appended only when its resolved
target is itself a node of the graph; and in the modes that materialize
export edges (`full`, `exports_only`), a file with a nonempty export list
contributes exactly one export edge, carrying its full export list. -/
theorem C4_import_targets_are_nodes_and_one_export_edge_per_file :
    (∀ (extract : String → String → Deps) (resolve : String → String → String)
        (walkFiles : List (String × String)) (gt : String) (e : Edge),
      e ∈ (build_dependency_graph extract resolve walkFiles gt).1.edges →
      e.type = "import" →
      ∃ t, e.«to» = some t
        ∧ t ∈ (build_dependency_graph extract resolve walkFiles gt).1.nodes)
    ∧ (∀ (extract : String → String → Deps) (resolve : String → String → String)
        (walkFiles : List (String × String)) (gt : String) (file : String) (deps : Deps),
      gt = "full" ∨ gt = "exports_only" →
      dictGet (build_dependency_graph extract resolve walkFiles gt).2 file = some deps →
      deps.exports ≠ [] →
      ((build_dependency_graph extract resolve walkFiles gt).1.edges.filter
        (isExportEdgeFrom file)) = [mkExportEdge gt file deps.exports]) := by
  constructor
  · intro extract resolve walkFiles gt e hmem htype
    have hmem' : e ∈ edges_pass resolve gt (collect_pass extract walkFiles).1
        (collect_pass extract walkFiles).2 := hmem
    rw [edges_pass_eq_flatMap] at hmem'
    rcases List.mem_flatMap.mp hmem' with ⟨fd, _, hin⟩
    rcases mem_edgesForFile hin with ⟨imp, _, hcont, rfl⟩ | rfl
    · exact ⟨resolve fd.1 imp, rfl, by simpa using hcont⟩
    · simp [mkExportEdge] at htype
  · intro extract resolve walkFiles gt file deps hgt hlk hne
    have hnodup := collect_pass_keys_nodup extract walkFiles
    have hgt' : (gt == "full" || gt == "exports_only") = true := by
      rcases hgt with rfl | rfl <;> rfl
    have hedges : (build_dependency_graph extract resolve walkFiles gt).1.edges
        = ((collect_pass extract walkFiles).2.flatMap
            (fun fd => edgesForFile resolve gt (collect_pass extract walkFiles).1 fd.1 fd.2)) :=
      edges_pass_eq_flatMap resolve gt (collect_pass extract walkFiles).1
        (collect_pass extract walkFiles).2
    rw [hedges]
    exact filter_export_flatMap hgt' hne (collect_pass extract walkFiles).2 hnodup hlk

/-- C4 witness: on the scenario repository, the import edge's target
`file2.ts` is a node, and `file2.ts` (exports `["func"]`) contributes exactly
one export edge. -/
theorem C4_witness :
    (∃ t, (mkImportEdge "full" "file1.ts" "file2.ts" ["./file2"]).«to» = some t
      ∧ t ∈ (build_dependency_graph extract_dependencies_ts_dispatch scenarioResolve
          scenarioWalk "full").1.nodes)
    ∧ ((build_dependency_graph extract_dependencies_ts_dispatch scenarioResolve
          scenarioWalk "full").1.edges.filter (isExportEdgeFrom "file2.ts"))
      = [mkExportEdge "full" "file2.ts" (extract_dependencies_ts_content file2Content).exports] :=
  ⟨C4_import_targets_are_nodes_and_one_export_edge_per_file.1
      extract_dependencies_ts_dispatch scenarioResolve scenarioWalk "full"
      (mkImportEdge "full" "file1.ts" "file2.ts" ["./file2"]) (by decide) rfl,
   C4_import_targets_are_nodes_and_one_export_edge_per_file.2
      extract_dependencies_ts_dispatch scenarioResolve scenarioWalk "full" "file2.ts"
      (extract_dependencies_ts_content file2Content) (Or.inl rfl) (by decide) (by decide)⟩

/-! ## C9: the Import Resolver -/

lemma probeExts_eq_find (fs : FS) (stem : String) :
    ∀ l : List String,
      probeExts fs stem l
        = (l.find? (fun e => fs.existsPath (stem ++ e))).map (fun e => stem ++ e) := by
  intro l
  induction l with
  | nil => rfl
  | cons e es ih =>
    by_cases h : fs.existsPath (stem ++ e) = true <;>
      simp [probeExts, List.find?, h, ih]

lemma probeIndexFiles_eq_find (fs : FS) (cand : String) :
    ∀ l : List String,
      probeIndexFiles fs cand l
        = (l.find? (fun pf => fs.existsPath (pathJoin cand pf))).map (fun pf => pathJoin cand pf) := by
  intro l
  induction l with
  | nil => rfl
  | cons pf pfs ih =>
    by_cases h : fs.existsPath (pathJoin cand pf) = true <;>
      simp [probeIndexFiles, List.find?, h, ih]

/-- C9: for a non-relative specifier the resolver translates dots to path
separators, probes `.ts`, `.tsx`, `.py` in order under the repository root,
returns the first (root-relative) match and otherwise the original specifier
unchanged; for a relative specifier whose joined, normalized path is an
existing directory, it returns the first existing index file among
`index.ts`, `index.tsx`, `__init__.py`, or the bare directory path if none
exists. -/
theorem C9_resolver_probes_extensions_and_index_files (fs : FS) (file imp : String) :
    (startsWithDot imp = false →
      resolve_import_path fs file imp
        = match supportedExts.find? (fun e => fs.existsPath (replaceDotSep imp ++ e)) with
          | some e => normpath (replaceDotSep imp ++ e)
          | none => imp)
    ∧ (startsWithDot imp = true →
      fs.isdir (normpath (pathJoin (dirname file) imp)) = true →
      resolve_import_path fs file imp
        = match indexFiles.find? (fun pf =>
              fs.existsPath (pathJoin (normpath (pathJoin (dirname file) imp)) pf)) with
          | some pf => pathJoin (normpath (pathJoin (dirname file) imp)) pf
          | none => normpath (pathJoin (dirname file) imp)) := by
  constructor
  · intro h
    rw [resolve_import_path, if_neg (by simp [h])]
    dsimp only
    rw [probeExts_eq_find]
    cases supportedExts.find? (fun e => fs.existsPath (replaceDotSep imp ++ e)) <;> rfl
  · intro h hdir
    rw [resolve_import_path, if_pos h]
    dsimp only
    rw [if_pos hdir, probeIndexFiles_eq_find]
    cases indexFiles.find? (fun pf =>
        fs.existsPath (pathJoin (normpath (pathJoin (dirname file) imp)) pf)) <;> rfl

/-- C9 witness: both branches evaluated on a concrete filesystem
(`pkg.mod` resolves to `pkg/mod.py`; `./pkg` is a directory and resolves to
its first existing index file `pkg/index.ts`). -/
theorem C9_resolver_witness :
    (resolve_import_path resolverFS "main.ts" "pkg.mod"
      = match supportedExts.find? (fun e =>
            resolverFS.existsPath (replaceDotSep "pkg.mod" ++ e)) with
        | some e => normpath (replaceDotSep "pkg.mod" ++ e)
        | none => "pkg.mod")
    ∧ (resolve_import_path resolverFS "main.ts" "./pkg"
      = match indexFiles.find? (fun pf =>
            resolverFS.existsPath
              (pathJoin (normpath (pathJoin (dirname "main.ts") "./pkg")) pf)) with
        | some pf => pathJoin (normpath (pathJoin (dirname "main.ts") "./pkg")) pf
        | none => normpath (pathJoin (dirname "main.ts") "./pkg")) :=
  ⟨(C9_resolver_probes_extensions_and_index_files resolverFS "main.ts" "pkg.mod").1 rfl,
   (C9_resolver_probes_extensions_and_index_files resolverFS "main.ts" "./pkg").2 rfl (by decide)⟩

/-! ## C10: the tree-order file collector returns basenames -/

lemma splitOnSlash_ne_nil : ∀ cs : List Char, splitOnSlash cs ≠ [] := by
  intro cs
  cases cs with
  | nil => simp [splitOnSlash]
  | cons c rest =>
    simp only [splitOnSlash]
    by_cases h : c = '/'
    · simp [h]
    · simp only [if_neg h]
      cases splitOnSlash rest <;> simp

lemma splitOnSlash_append : ∀ xs ys : List Char,
    splitOnSlash (xs ++ '/' :: ys) = splitOnSlash xs ++ splitOnSlash ys := by
  intro xs ys
  induction xs with
  | nil => simp [splitOnSlash]
  | cons c rest ih =>
    rw [List.cons_append]
    simp only [splitOnSlash, ih]
    by_cases h : c = '/'
    · simp [h]
    · simp only [if_neg h]
      cases hr : splitOnSlash rest with
      | nil => exact absurd hr (splitOnSlash_ne_nil rest)
      | cons comp comps => simp

lemma splitOnSlash_no_slash : ∀ cs : List Char, cs.contains '/' = false →
    splitOnSlash cs = [cs] := by
  intro cs
  induction cs with
  | nil => intro _; rfl
  | cons c rest ih =>
    intro h
    simp only [List.contains_cons, Bool.or_eq_false_iff] at h
    have hc : ¬ c = '/' := fun hh => by simp [hh] at h
    simp only [splitOnSlash, if_neg hc, ih h.2]

lemma basenameStr_relJoin (rel n : String) (h : n.data.contains '/' = false) :
    basenameStr (relJoin rel n) = n := by
  by_cases hrel : rel = ""
  · rw [relJoin, if_pos hrel, basenameStr, basenameChars, splitOnSlash_no_slash n.data h]
    rfl
  · rw [relJoin, if_neg hrel, basenameStr, basenameChars]
    have hdata : (rel ++ "/" ++ n).data = rel.data ++ '/' :: n.data := by
      simp [String.data_append]
    rw [hdata, splitOnSlash_append, splitOnSlash_no_slash n.data h,
      List.getLast?_append, List.getLast?_singleton]
    rfl

lemma mem_insertByName {t u : FSTree} : ∀ l : List FSTree, u ∈ insertByName t l → u = t ∨ u ∈ l := by
  intro l
  induction l with
  | nil => intro h; simp [insertByName] at h; exact Or.inl h
  | cons v rest ih =>
    intro h
    rw [insertByName] at h
    by_cases hc : nameLe (treeName t) (treeName v) = true
    · rw [if_pos hc] at h
      rcases List.mem_cons.mp h with h | h
      · exact Or.inl h
      · exact Or.inr h
    · rw [if_neg hc] at h
      rcases List.mem_cons.mp h with h | h
      · exact Or.inr (List.mem_cons.mpr (Or.inl h))
      · rcases ih h with h | h
        · exact Or.inl h
        · exact Or.inr (List.mem_cons.mpr (Or.inr h))

lemma mem_sortEntries {u : FSTree} : ∀ l : List FSTree, u ∈ sortEntries l → u ∈ l := by
  intro l
  induction l with
  | nil => intro h; simp [sortEntries] at h
  | cons t rest ih =>
    intro h
    rw [sortEntries, List.foldr_cons] at h
    rcases mem_insertByName _ h with h | h
    · exact List.mem_cons.mpr (Or.inl h)
    · exact List.mem_cons.mpr (Or.inr (ih h))

theorem entriesNamesOk_eq_forest : (sub : FSEntries) →
    entriesNamesOk sub = forestNamesOk sub.toList
  | .nil => rfl
  | .cons t r => by
    rw [entriesNamesOk, FSEntries.toList, forestNamesOk, List.all_cons,
      entriesNamesOk_eq_forest r]
    rfl

lemma collectAux_eq_fullPathsAux (ignore : String → Bool) :
    ∀ fuel : Nat, ∀ entries : List FSTree, forestNamesOk entries = true →
      ∀ rootPath rel : String,
        collectAux ignore fuel rootPath entries
          = (fullPathsAux ignore fuel rootPath rel entries).map basenameStr := by
  intro fuel
  induction fuel with
  | zero => intro entries _ rootPath rel; rfl
  | succ fuel ih =>
    intro entries hok rootPath rel
    rw [collectAux, fullPathsAux]
    have hmem : ∀ t ∈ sortEntries entries, treeNameOk t = true := by
      intro t ht
      exact List.all_eq_true.mp hok t (mem_sortEntries entries ht)
    suffices hgen : ∀ l : List FSTree, (∀ t ∈ l, treeNameOk t = true) →
        ∀ acc : List String,
          List.foldl
            (fun result t =>
              let p := pathJoin rootPath (treeName t)
              if ignore p then result
              else
                match t with
                | .file n => result ++ [n]
                | .dir _ sub => result ++ collectAux ignore fuel p sub.toList)
            (acc.map basenameStr) l
          = (List.foldl
              (fun result t =>
                let p := pathJoin rootPath (treeName t)
                if ignore p then result
                else
                  match t with
                  | .file n => result ++ [relJoin rel n]
                  | .dir n sub => result ++ fullPathsAux ignore fuel p (relJoin rel n) sub.toList)
              acc l).map basenameStr by
      simpa using hgen (sortEntries entries) hmem []
    intro l
    induction l with
    | nil => intro _ acc; rfl
    | cons t rest ihl =>
      intro hl acc
      have ht := hl t (List.mem_cons_self t rest)
      have htl : ∀ u ∈ rest, treeNameOk u = true :=
        fun u hu => hl u (List.mem_cons_of_mem t hu)
      rw [List.foldl_cons, List.foldl_cons]
      cases t with
      | file n =>
        dsimp only [treeName]
        by_cases hig : ignore (pathJoin rootPath n) = true
        · rw [if_pos hig, if_pos hig]
          exact ihl htl acc
        · rw [if_neg hig, if_neg hig]
          have hbn : basenameStr (relJoin rel n) = n :=
            basenameStr_relJoin rel n (by simpa [treeNameOk] using ht)
          have hacc : acc.map basenameStr ++ [n] = (acc ++ [relJoin rel n]).map basenameStr := by
            simp [hbn]
          rw [hacc]
          exact ihl htl (acc ++ [relJoin rel n])
      | dir n sub =>
        dsimp only [treeName]
        by_cases hig : ignore (pathJoin rootPath n) = true
        · rw [if_pos hig, if_pos hig]
          exact ihl htl acc
        · rw [if_neg hig, if_neg hig]
          have hsub : forestNamesOk sub.toList = true := by
            rw [treeNameOk, Bool.and_eq_true] at ht
            rw [← entriesNamesOk_eq_forest]
            exact ht.2
          have hrec := ih sub.toList hsub (pathJoin rootPath n) (relJoin rel n)
          have hacc : acc.map basenameStr ++ collectAux ignore fuel (pathJoin rootPath n) sub.toList
              = (acc ++ fullPathsAux ignore fuel (pathJoin rootPath n) (relJoin rel n) sub.toList).map
                  basenameStr := by
            rw [hrec, List.map_append]
          rw [hacc]
          exact ihl htl (acc ++ fullPathsAux ignore fuel (pathJoin rootPath n) (relJoin rel n) sub.toList)

/-- C10 (counterexample): with `b.ts` at the root (importing `./x`) and
another `b.ts` nested in `a/`, the collector lists the nested file by its
bare basename, and the single-document dependency lookup then finds the
*root* file's entry for it: the nested file (first listed, per the sorted
traversal and `fullPaths`) is reported with dependencies `["./x"]`, not with
"no dependencies". -/
theorem C10_nested_basename_collision :
    fullPaths noIgnoreP "ROOT" collisionTree = ["a/b.ts", "b.ts"]
    ∧ collect_all_files_in_tree_order noIgnoreP "ROOT" collisionTree = ["b.ts", "b.ts"]
    ∧ (single_doc_dependency_entries
        (build_dependency_graph extract_dependencies_ts_dispatch
          (resolve_import_path collisionFS) collisionWalk "full").2
        (collect_all_files_in_tree_order noIgnoreP "ROOT" collisionTree)).head?
      = some ("b.ts", ["./x"]) := by
  refine ⟨by decide, by decide, by decide⟩

/-- C10 (amended): the collector indeed returns each file's bare basename
(the path relative to the innermost recursive call), never its root-relative
path; consequently the single-document generator's per-file lookup is keyed
by basenames against a map keyed by root-relative paths, so a nested file is
reported as having no dependencies *unless* a root-level indexed file shares
its basename, in which case that file's dependency list is (wrongly)
reported for it. -/
theorem C10_collector_returns_basenames (ignore : String → Bool) (rootPath : String)
    (entries : List FSTree) (fdeps : List (String × Deps))
    (hok : forestNamesOk entries = true) :
    collect_all_files_in_tree_order ignore rootPath entries
      = (fullPaths ignore rootPath entries).map basenameStr
    ∧ single_doc_dependency_entries fdeps
        (collect_all_files_in_tree_order ignore rootPath entries)
      = (fullPaths ignore rootPath entries).map (fun p =>
          (basenameStr p,
           match dictGet fdeps (basenameStr p) with
           | some d => d.imports
           | none => [])) := by
  have h1 : collect_all_files_in_tree_order ignore rootPath entries
      = (fullPaths ignore rootPath entries).map basenameStr :=
    collectAux_eq_fullPathsAux ignore (forestSize entries + 1) entries hok rootPath ""
  refine ⟨h1, ?_⟩
  rw [single_doc_dependency_entries, h1, List.map_map]
  rfl

/-- C10 witness: the amended statement applied to the collision repository. -/
theorem C10_collector_witness :
    collect_all_files_in_tree_order noIgnoreP "ROOT" collisionTree
      = (fullPaths noIgnoreP "ROOT" collisionTree).map basenameStr
    ∧ single_doc_dependency_entries
        (build_dependency_graph extract_dependencies_ts_dispatch
          (resolve_import_path collisionFS) collisionWalk "full").2
        (collect_all_files_in_tree_order noIgnoreP "ROOT" collisionTree)
      = (fullPaths noIgnoreP "ROOT" collisionTree).map (fun p =>
          (basenameStr p,
           match dictGet (build_dependency_graph extract_dependencies_ts_dispatch
               (resolve_import_path collisionFS) collisionWalk "full").2 (basenameStr p) with
           | some d => d.imports
           | none => [])) :=
  C10_collector_returns_basenames noIgnoreP "ROOT" collisionTree
    (build_dependency_graph extract_dependencies_ts_dispatch
      (resolve_import_path collisionFS) collisionWalk "full").2 (by decide)

/-! ## C6, C7: the Change Tracker -/

lemma map_dictInsert {β γ : Type} (g : β → γ) (k : String) (v : β) :
    ∀ l : List (String × β),
      (dictInsert l k v).map (fun x => (x.1, g x.2))
        = dictInsert (l.map (fun x => (x.1, g x.2))) k (g v) := by
  intro l
  induction l with
  | nil => rfl
  | cons p rest ih =>
    obtain ⟨k', v'⟩ := p
    by_cases h : k' = k <;> simp [dictInsert, h, ih]

lemma snapshotOf_eq_map (hash : String → String) (walked : List (String × Option String)) :
    snapshotOf hash walked = (trackerCurrent hash walked).map (fun fd => (fd.1, fd.2.1)) := by
  rw [snapshotOf, trackerCurrent]
  suffices h : ∀ (wk : List (String × Option String)) (cur : List (String × (String × String))),
      List.foldl
        (fun cur pc =>
          match pc.2 with
          | none => cur
          | some c => dictInsert cur pc.1 (hash c))
        (cur.map (fun fd => (fd.1, fd.2.1))) wk
      = (List.foldl
          (fun cur pc =>
            match pc.2 with
            | none => cur
            | some c => dictInsert cur pc.1 (hash c, c))
          cur wk).map (fun fd => (fd.1, fd.2.1)) by
    simpa using h walked []
  intro wk
  induction wk with
  | nil => intro cur; rfl
  | cons pc rest ih =>
    intro cur
    rw [List.foldl_cons, List.foldl_cons]
    cases hc : pc.2 with
    | none => simp only [hc]; exact ih cur
    | some c =>
      simp only [hc]
      rw [show dictInsert (cur.map (fun fd => (fd.1, fd.2.1))) pc.1 (hash c)
          = (dictInsert cur pc.1 (hash c, c)).map (fun fd => (fd.1, fd.2.1)) from
        (map_dictInsert (fun v => v.1) pc.1 (hash c, c) cur).symm]
      exact ih _

lemma trackerCurrent_keys_nodup (hash : String → String)
    (walked : List (String × Option String)) :
    ((trackerCurrent hash walked).map Prod.fst).Nodup := by
  rw [trackerCurrent]
  suffices h : ∀ (wk : List (String × Option String)) (cur : List (String × (String × String))),
      (cur.map Prod.fst).Nodup →
      ((List.foldl
        (fun cur pc =>
          match pc.2 with
          | none => cur
          | some c => dictInsert cur pc.1 (hash c, c))
        cur wk).map Prod.fst).Nodup by
    exact h walked [] (by simp)
  intro wk
  induction wk with
  | nil => intro cur hn; exact hn
  | cons pc rest ih =>
    intro cur hn
    rw [List.foldl_cons]
    refine ih _ ?_
    cases hc : pc.2 with
    | none => simpa only [hc] using hn
    | some c =>
      simp only [hc]
      exact keys_nodup_dictInsert pc.1 (hash c, c) cur hn

lemma snapshotOf_keys_nodup (hash : String → String)
    (walked : List (String × Option String)) :
    ((snapshotOf hash walked).map Prod.fst).Nodup := by
  rw [snapshotOf_eq_map, List.map_map]
  exact trackerCurrent_keys_nodup hash walked

lemma ite_some_eq_none_iff {α : Type} (cond : Bool) (x : α) :
    ((if cond = true then some x else none) = none) ↔ cond = false := by
  cases cond <;> simp

lemma update_cache_eq (hash : String → String) (diffFn : String → String → String)
    (now : String) (walked : List (String × Option String)) (oldCache : Option Cache) :
    (update_cache_and_generate_diff hash diffFn now walked oldCache false).cache
      = some { files := snapshotOf hash walked, timestamp := now } := by
  rw [update_cache_and_generate_diff.eq_def, if_neg (by simp)]
  dsimp only
  rw [snapshotOf_eq_map]
  rfl

lemma update_report_eq_none_iff (hash : String → String) (diffFn : String → String → String)
    (now : String) (walked : List (String × Option String)) (oldCache : Option Cache) :
    (update_cache_and_generate_diff hash diffFn now walked oldCache false).report = none
      ↔ (∀ ph ∈ snapshotOf hash walked,
          List.lookup ph.1 (oldFilesOf oldCache) = some ph.2)
        ∧ (∀ p ∈ (oldFilesOf oldCache).map Prod.fst,
          p ∈ (snapshotOf hash walked).map Prod.fst) := by
  rw [update_cache_and_generate_diff.eq_def, if_neg (by simp)]
  dsimp only
  rw [ite_some_eq_none_iff, ← trackerCurrent.eq_def, ← oldFilesOf.eq_def,
    Bool.or_eq_false_iff, Bool.not_eq_false', Bool.not_eq_false',
    List.isEmpty_iff, List.isEmpty_iff, List.map_eq_nil_iff,
    List.filter_eq_nil_iff, List.filter_eq_nil_iff, snapshotOf_eq_map]
  apply and_congr
  · rw [List.forall_mem_map]
    apply forall₂_congr
    intro fd _
    cases h : List.lookup fd.1 (oldFilesOf oldCache) <;> simp [h]
  · rw [List.map_map]
    apply forall₂_congr
    intro p _
    simp

/-- C6: a reconciling run (caching enabled) writes the change report exactly
when some current file is absent from the prior snapshot or hashes
differently, or some prior path is gone; the persisted snapshot is rewritten
unconditionally and holds only per-path hashes plus the run timestamp
(`snapshotOf` is built from hashes alone); with caching disabled the snapshot
is deleted and neither snapshot nor report is written. -/
theorem C6_report_iff_changes_and_snapshot_unconditional (hash : String → String)
    (diffFn : String → String → String) (now : String)
    (walked : List (String × Option String)) (oldCache : Option Cache) :
    update_cache_and_generate_diff hash diffFn now walked oldCache true
      = { cache := none, report := none }
    ∧ (update_cache_and_generate_diff hash diffFn now walked oldCache false).cache
      = some { files := snapshotOf hash walked, timestamp := now }
    ∧ ((update_cache_and_generate_diff hash diffFn now walked oldCache false).report = none
        ↔ (∀ ph ∈ snapshotOf hash walked,
            List.lookup ph.1 (oldFilesOf oldCache) = some ph.2)
          ∧ (∀ p ∈ (oldFilesOf oldCache).map Prod.fst,
            p ∈ (snapshotOf hash walked).map Prod.fst)) :=
  ⟨rfl, update_cache_eq hash diffFn now walked oldCache,
   update_report_eq_none_iff hash diffFn now walked oldCache⟩

/-- C7: the Change Tracker is idempotent — a second reconciling run over an
unchanged tree, starting from the snapshot the first run persisted, finds no
changed and no removed files and writes no change report (hashing is a
function, so unchanged content re-hashes to the prior snapshot's value). -/
theorem C7_second_run_over_unchanged_tree_writes_no_report (hash : String → String)
    (diffFn : String → String → String) (now1 now2 : String)
    (walked : List (String × Option String)) (oldCache : Option Cache) :
    (update_cache_and_generate_diff hash diffFn now2 walked
      (update_cache_and_generate_diff hash diffFn now1 walked oldCache false).cache
      false).report = none := by
  rw [update_cache_eq, update_report_eq_none_iff]
  constructor
  · intro ph hmem
    show List.lookup ph.1 (snapshotOf hash walked) = some ph.2
    exact lookup_of_mem_of_nodup (snapshotOf_keys_nodup hash walked) (by simpa using hmem)
  · intro p hp
    simpa using hp

/-! ## C5: the structural extractor -/

theorem pyBodySize_toList : (b : PyBody) → (b.toList.map pySize).sum = pyBodySize b
  | .nil => rfl
  | .cons s r => by
    rw [PyBody.toList, List.map_cons, List.sum_cons, pyBodySize, pyBodySize_toList r]

lemma pySize_eq_children : ∀ s : PyStmt, pySize s = 1 + ((pyChildren s).map pySize).sum := by
  intro s
  cases s <;> simp [pySize, pyChildren, pyBodySize_toList]

lemma pySize_pos : ∀ s : PyStmt, 1 ≤ pySize s := by
  intro s
  rw [pySize_eq_children s]
  omega

lemma sizeQueue_append (a b : List (PyStmt × Bool)) :
    sizeQueue (a ++ b) = sizeQueue a + sizeQueue b := by
  simp [sizeQueue]

lemma sizeQueue_children (s : PyStmt) :
    sizeQueue ((pyChildren s).map (fun c => (c, false))) = ((pyChildren s).map pySize).sum := by
  simp [sizeQueue, List.map_map]
  rfl

lemma sizeQueue_eq_zero {q : List (PyStmt × Bool)} (h : sizeQueue q = 0) : q = [] := by
  cases q with
  | nil => rfl
  | cons sb rest =>
    exfalso
    have h1 := pySize_pos sb.1
    simp [sizeQueue] at h
    omega

/-- Flagged (parent-is-module) nodes of the breadth-first walk are exactly the
flagged nodes of the initial queue, in order: children are always enqueued
unflagged. -/
lemma pywalk_filterMap_flag :
    ∀ (fuel : Nat) (q : List (PyStmt × Bool)), sizeQueue q ≤ fuel →
      (pywalk fuel q).filterMap (fun sb => if sb.2 then some sb.1 else none)
        = q.filterMap (fun sb => if sb.2 then some sb.1 else none) := by
  intro fuel
  induction fuel with
  | zero =>
    intro q hq
    rw [sizeQueue_eq_zero (Nat.le_zero.mp hq)]
    rfl
  | succ fuel ih =>
    intro q hq
    cases q with
    | nil => rfl
    | cons sb rest =>
      rw [pywalk, List.filterMap_cons, List.filterMap_cons]
      have hsz : sizeQueue (rest ++ (pyChildren sb.1).map (fun c => (c, false))) ≤ fuel := by
        rw [sizeQueue_append, sizeQueue_children]
        have : sizeQueue (sb :: rest) = pySize sb.1 + sizeQueue rest := by simp [sizeQueue]
        rw [this, pySize_eq_children sb.1] at hq
        omega
      rw [ih _ hsz, List.filterMap_append]
      have hch : ((pyChildren sb.1).map (fun c => (c, false))).filterMap
          (fun sb => if sb.2 then some sb.1 else none) = [] := by
        simp
      rw [hch, List.append_nil]

theorem dfsOrderBody_toList : (b : PyBody) →
    dfsOrderBody b = b.toList.flatMap dfsOrderStmt
  | .nil => rfl
  | .cons s r => by
    rw [dfsOrderBody, PyBody.toList, List.flatMap_cons, dfsOrderBody_toList r]

lemma dfsOrderStmt_eq_cons_children (s : PyStmt) :
    dfsOrderStmt s = s :: (pyChildren s).flatMap dfsOrderStmt := by
  cases s <;> simp [dfsOrderStmt, pyChildren, dfsOrderBody_toList]

/-- The breadth-first walk visits, as a multiset, exactly the depth-first
pre-order listing of the queue's subtrees. -/
lemma pywalk_perm_dfs :
    ∀ (fuel : Nat) (q : List (PyStmt × Bool)), sizeQueue q ≤ fuel →
      ((pywalk fuel q).map Prod.fst).Perm ((q.map Prod.fst).flatMap dfsOrderStmt) := by
  intro fuel
  induction fuel with
  | zero =>
    intro q hq
    rw [sizeQueue_eq_zero (Nat.le_zero.mp hq)]
    rfl
  | succ fuel ih =>
    intro q hq
    cases q with
    | nil => rfl
    | cons sb rest =>
      rw [pywalk, List.map_cons, List.map_cons, List.flatMap_cons]
      have hsz : sizeQueue (rest ++ (pyChildren sb.1).map (fun c => (c, false))) ≤ fuel := by
        rw [sizeQueue_append, sizeQueue_children]
        have : sizeQueue (sb :: rest) = pySize sb.1 + sizeQueue rest := by simp [sizeQueue]
        rw [this, pySize_eq_children sb.1] at hq
        omega
      have hchmap : (rest ++ (pyChildren sb.1).map (fun c => (c, false))).map Prod.fst
          = rest.map Prod.fst ++ pyChildren sb.1 := by
        rw [List.map_append, List.map_map,
          show (Prod.fst ∘ fun c : PyStmt => (c, false)) = id from rfl, List.map_id]
      have hperm' : ((pywalk fuel (rest ++ (pyChildren sb.1).map (fun c => (c, false)))).map
            Prod.fst).Perm
          ((rest.map Prod.fst).flatMap dfsOrderStmt ++ (pyChildren sb.1).flatMap dfsOrderStmt) := by
        have h := ih _ hsz
        rw [hchmap, List.flatMap_append] at h
        exact h
      refine List.Perm.trans (hperm'.cons sb.1) ?_
      rw [dfsOrderStmt_eq_cons_children sb.1, List.cons_append]
      exact List.Perm.cons sb.1 List.perm_append_comm

lemma filterMap_eq_flatMap_toList {α β : Type} (f : α → Option β) :
    ∀ l : List α, l.filterMap f = l.flatMap (fun a => (f a).toList) := by
  intro l
  induction l with
  | nil => rfl
  | cons x rest ih => cases h : f x <;> simp [h, ih]

lemma pyProcess_step (acc : List String × List String × List PyClassInfo) (sb : PyStmt × Bool) :
    pyProcess acc sb
      = (acc.1 ++ importNamesOf sb.1,
         acc.2.1 ++ (funcNameTop sb).toList,
         acc.2.2 ++ (classEntry sb.1).toList) := by
  obtain ⟨s, flag⟩ := sb
  cases s with
  | importStmt ns => cases flag <;> simp [pyProcess, importNamesOf, funcNameTop, classEntry]
  | importFrom m ns =>
    cases m <;> cases flag <;> simp [pyProcess, importNamesOf, funcNameTop, classEntry]
  | funcDef n b => cases flag <;> simp [pyProcess, importNamesOf, funcNameTop, classEntry]
  | classDef n b => cases flag <;> simp [pyProcess, importNamesOf, funcNameTop, classEntry]
  | other b => cases flag <;> simp [pyProcess, importNamesOf, funcNameTop, classEntry]

lemma foldl_pyProcess :
    ∀ (L : List (PyStmt × Bool)) (i f : List String) (c : List PyClassInfo),
      L.foldl pyProcess (i, f, c)
        = (i ++ L.flatMap (fun sb => importNamesOf sb.1),
           f ++ L.flatMap (fun sb => (funcNameTop sb).toList),
           c ++ L.flatMap (fun sb => (classEntry sb.1).toList)) := by
  intro L
  induction L with
  | nil => intro i f c; simp
  | cons sb rest ih =>
    intro i f c
    rw [List.foldl_cons, pyProcess_step, ih]
    simp [List.append_assoc]

mutual
theorem allClassesStmt_eq_dfs : (s : PyStmt) →
    (dfsOrderStmt s).filterMap classEntry = allClassesStmt s
  | .importStmt ns => rfl
  | .importFrom m ns => rfl
  | .funcDef n b => by
    simp [dfsOrderStmt, allClassesStmt, classEntry, allClassesBody_eq_dfs b]
  | .classDef n b => by
    simp [dfsOrderStmt, allClassesStmt, classEntry, allClassesBody_eq_dfs b]
  | .other b => by
    simp [dfsOrderStmt, allClassesStmt, classEntry, allClassesBody_eq_dfs b]
theorem allClassesBody_eq_dfs : (b : PyBody) →
    (dfsOrderBody b).filterMap classEntry = allClassesBody b
  | .nil => rfl
  | .cons s r => by
    rw [dfsOrderBody, List.filterMap_append, allClassesStmt_eq_dfs s, allClassesBody_eq_dfs r]
    rfl
end

lemma filterMap_flatMap {α β γ : Type} (g : α → List β) (f : β → Option γ) :
    ∀ l : List α, (l.flatMap g).filterMap f = l.flatMap (fun x => (g x).filterMap f) := by
  intro l
  induction l with
  | nil => rfl
  | cons x rest ih => simp [List.flatMap_cons, List.filterMap_append, ih]

lemma parse_python_structure_eq (mod : List PyStmt) :
    parse_python_structure mod
      = ((pywalk (sizeQueue (mod.map (fun s => (s, true))) + 1)
            (mod.map (fun s => (s, true)))).flatMap (fun sb => importNamesOf sb.1),
         (pywalk (sizeQueue (mod.map (fun s => (s, true))) + 1)
            (mod.map (fun s => (s, true)))).flatMap (fun sb => (funcNameTop sb).toList)
           ++ ((pywalk (sizeQueue (mod.map (fun s => (s, true))) + 1)
              (mod.map (fun s => (s, true)))).flatMap
                (fun sb => (classEntry sb.1).toList)).map (fun c => c.name),
         { language := "python",
           functions := (pywalk (sizeQueue (mod.map (fun s => (s, true))) + 1)
              (mod.map (fun s => (s, true)))).flatMap (fun sb => (funcNameTop sb).toList),
           classes := (pywalk (sizeQueue (mod.map (fun s => (s, true))) + 1)
              (mod.map (fun s => (s, true)))).flatMap (fun sb => (classEntry sb.1).toList) }) := by
  rw [parse_python_structure.eq_def]
  dsimp only
  rw [foldl_pyProcess]
  rfl

/-- C5 (counterexample): a class nested inside a top-level class appears in
the extractor's `classes` list — the `ClassDef` branch of the walk has no
parent check — so the classes list is not "exactly the classes defined at
module top level". -/
theorem C5_nested_class_appears_in_classes :
    (parse_python_structure nestedClassMod).2.2.classes
      = [{ name := "Outer", methods := [] }, { name := "Inner", methods := [] }]
    ∧ topLevelClasses nestedClassMod = [{ name := "Outer", methods := [] }]
    ∧ ¬ ((parse_python_structure nestedClassMod).2.2.classes
          = topLevelClasses nestedClassMod) :=
  ⟨by decide, by decide, by decide⟩

/-- C5 (amended): the functions list contains exactly the module-top-level
function names in declaration order (nested and method-level functions
excluded); the classes list contains every class definition at *any* nesting
depth (as a multiset: it is a permutation of the depth-first listing of all
classes, each with its directly-defined methods in order); and the exported
symbol list is the functions list followed by the names of all listed
classes. -/
theorem C5_functions_top_level_classes_all_depths (mod : List PyStmt) :
    (parse_python_structure mod).2.2.functions = topLevelFuncNames mod
    ∧ ((parse_python_structure mod).2.2.classes).Perm (allClasses mod)
    ∧ (parse_python_structure mod).2.1
        = (parse_python_structure mod).2.2.functions
          ++ ((parse_python_structure mod).2.2.classes).map (fun c => c.name) := by
  have hfuel : sizeQueue (mod.map (fun s => (s, true)))
      ≤ sizeQueue (mod.map (fun s => (s, true))) + 1 := Nat.le_succ _
  have hinitfst : (mod.map (fun s => (s, true))).map Prod.fst = mod := by
    rw [List.map_map, show (Prod.fst ∘ fun s : PyStmt => (s, true)) = id from rfl, List.map_id]
  refine ⟨?_, ?_, ?_⟩
  · rw [parse_python_structure_eq]
    dsimp only
    rw [← filterMap_eq_flatMap_toList,
      show funcNameTop = fun sb : PyStmt × Bool =>
        (if sb.2 then some sb.1 else none).bind (fun s =>
          match s with
          | .funcDef n _ => some n
          | _ => none) from by
        funext sb
        obtain ⟨s, flag⟩ := sb
        cases s <;> cases flag <;> rfl,
      ← List.filterMap_filterMap, pywalk_filterMap_flag _ _ hfuel, List.filterMap_map,
      show ((fun sb : PyStmt × Bool => if sb.2 = true then some sb.1 else none)
        ∘ fun s : PyStmt => (s, true)) = some from rfl]
    simp [topLevelFuncNames]
  · rw [parse_python_structure_eq]
    dsimp only
    rw [← filterMap_eq_flatMap_toList,
      show (fun sb : PyStmt × Bool => classEntry sb.1) = classEntry ∘ Prod.fst from rfl,
      ← List.filterMap_map]
    have hperm : ((pywalk (sizeQueue (mod.map (fun s => (s, true))) + 1)
        (mod.map (fun s => (s, true)))).map Prod.fst).Perm (mod.flatMap dfsOrderStmt) := by
      have h := pywalk_perm_dfs _ _ hfuel
      rwa [hinitfst] at h
    refine (hperm.filterMap classEntry).trans ?_
    rw [filterMap_flatMap]
    simp only [allClassesStmt_eq_dfs]
    rfl
  · rw [parse_python_structure_eq]

/-! ## C8: the Context Collector computes import reachability -/

lemma succs_subset_targets {edges : List Edge} {f s : String} (h : s ∈ succs edges f) :
    s ∈ edges.filterMap (fun e => e.«to») := by
  rcases List.mem_filterMap.mp h with ⟨e, he, heq⟩
  refine List.mem_filterMap.mpr ⟨e, he, ?_⟩
  by_cases h1 : (e.«from» == f && e.type == "import") = true
  · rw [if_pos h1] at heq
    cases hto : e.«to» with
    | none => rw [hto] at heq; exact absurd heq (by simp)
    | some t =>
      rw [hto] at heq
      by_cases h2 : t = ""
      · simp [h2] at heq
      · simp [h2] at heq
        rw [heq]
  · rw [if_neg h1] at heq
    exact absurd heq (by simp)

lemma dfs_append (edges : List Edge) :
    ∀ (fuel : Nat) (inv : List String) (f : String),
      ∃ pre, dfs edges fuel inv f = pre ++ inv := by
  intro fuel
  induction fuel with
  | zero => intro inv f; exact ⟨[], rfl⟩
  | succ fuel ih =>
    intro inv f
    rw [dfs]
    by_cases hf : inv.contains f = true
    · rw [if_pos hf]; exact ⟨[], rfl⟩
    · rw [if_neg hf]
      have hfold : ∀ (l : List String) (acc : List String),
          ∃ pre, List.foldl (dfs edges fuel) acc l = pre ++ acc := by
        intro l
        induction l with
        | nil => intro acc; exact ⟨[], rfl⟩
        | cons s rest ihl =>
          intro acc
          obtain ⟨p1, h1⟩ := ih acc s
          obtain ⟨p2, h2⟩ := ihl (dfs edges fuel acc s)
          exact ⟨p2 ++ p1, by rw [List.foldl_cons, h2, h1, List.append_assoc]⟩
      obtain ⟨pre, hpre⟩ := hfold (succs edges f) (f :: inv)
      exact ⟨pre ++ [f], by rw [hpre, List.append_assoc]; rfl⟩

lemma dfs_mono (edges : List Edge) (fuel : Nat) (inv : List String) (f : String) :
    ∀ x ∈ inv, x ∈ dfs edges fuel inv f := by
  obtain ⟨pre, hpre⟩ := dfs_append edges fuel inv f
  intro x hx
  rw [hpre]
  exact List.mem_append.mpr (Or.inr hx)

lemma dfs_sound (edges : List Edge) :
    ∀ (fuel : Nat) (inv : List String) (f x : String),
      x ∈ dfs edges fuel inv f → x ∈ inv ∨ Reach edges f x := by
  intro fuel
  induction fuel with
  | zero => intro inv f x hx; exact Or.inl hx
  | succ fuel ih =>
    intro inv f x hx
    rw [dfs] at hx
    by_cases hf : inv.contains f = true
    · rw [if_pos hf] at hx; exact Or.inl hx
    · rw [if_neg hf] at hx
      have hfold : ∀ (l : List String) (acc : List String),
          x ∈ List.foldl (dfs edges fuel) acc l →
          x ∈ acc ∨ ∃ s ∈ l, Reach edges s x := by
        intro l
        induction l with
        | nil => intro acc h; exact Or.inl h
        | cons s rest ihl =>
          intro acc h
          rw [List.foldl_cons] at h
          rcases ihl (dfs edges fuel acc s) h with h1 | ⟨s', hs', hr⟩
          · rcases ih acc s x h1 with h2 | h2
            · exact Or.inl h2
            · exact Or.inr ⟨s, List.mem_cons_self s rest, h2⟩
          · exact Or.inr ⟨s', List.mem_cons_of_mem s hs', hr⟩
      rcases hfold (succs edges f) (f :: inv) hx with h1 | ⟨s, hs, hr⟩
      · rcases List.mem_cons.mp h1 with h2 | h2
        · subst h2; exact Or.inr (Reach.refl _)
        · exact Or.inl h2
      · exact Or.inr (Reach.head hs hr)

/-- Completeness engine for the fuelled DFS: with enough fuel (measured
against a universe `U` that contains the start vertex and is closed under
successors), `dfs` returns a duplicate-free set extending `inv` that contains
`f` and is successor-closed at every newly added vertex. -/
lemma dfs_complete (edges : List Edge) (U : List String)
    (hU : ∀ f : String, ∀ s ∈ succs edges f, s ∈ U) :
    ∀ (fuel : Nat) (inv : List String) (f : String),
      inv.Nodup → (∀ v ∈ inv, v ∈ U) → f ∈ U →
      U.toFinset.card < fuel + inv.length →
      (dfs edges fuel inv f).Nodup
      ∧ (∀ v ∈ dfs edges fuel inv f, v ∈ U)
      ∧ f ∈ dfs edges fuel inv f
      ∧ (∀ v ∈ dfs edges fuel inv f, v ∉ inv →
          ∀ w ∈ succs edges v, w ∈ dfs edges fuel inv f) := by
  intro fuel
  induction fuel with
  | zero =>
    intro inv f hnd hsub _ hcard
    exfalso
    have h1 : inv.toFinset.card = inv.length := List.toFinset_card_of_nodup hnd
    have h2 : inv.toFinset ⊆ U.toFinset := by
      intro x hx
      exact List.mem_toFinset.mpr (hsub x (List.mem_toFinset.mp hx))
    have h3 := Finset.card_le_card h2
    omega
  | succ fuel ih =>
    intro inv f hnd hsub hfU hcard
    rw [dfs]
    by_cases hf : inv.contains f = true
    · rw [if_pos hf]
      exact ⟨hnd, hsub, by simpa using hf, fun v hv hvn => (hvn hv).elim⟩
    · rw [if_neg hf]
      have hfn : f ∉ inv := by simpa using hf
      have hfold : ∀ (l : List String), (∀ s ∈ l, s ∈ U) →
          ∀ (acc : List String), acc.Nodup → (∀ v ∈ acc, v ∈ U) →
          (∃ pre, acc = pre ++ f :: inv) →
          (∀ v ∈ acc, v ∉ f :: inv → ∀ w ∈ succs edges v, w ∈ acc) →
          (List.foldl (dfs edges fuel) acc l).Nodup
          ∧ (∀ v ∈ List.foldl (dfs edges fuel) acc l, v ∈ U)
          ∧ (∃ pre, List.foldl (dfs edges fuel) acc l = pre ++ f :: inv)
          ∧ (∀ v ∈ List.foldl (dfs edges fuel) acc l, v ∉ f :: inv →
              ∀ w ∈ succs edges v, w ∈ List.foldl (dfs edges fuel) acc l)
          ∧ (∀ s ∈ l, s ∈ List.foldl (dfs edges fuel) acc l)
          ∧ (∀ v ∈ acc, v ∈ List.foldl (dfs edges fuel) acc l) := by
        intro l
        induction l with
        | nil =>
          intro _ acc h1 h2 h3 h4
          exact ⟨h1, h2, h3, h4, by simp, fun v hv => hv⟩
        | cons s rest ihl =>
          intro hlU acc h1 h2 h3 h4
          rw [List.foldl_cons]
          obtain ⟨pre, hpre⟩ := h3
          have hlen : inv.length + 1 ≤ acc.length := by
            rw [hpre]
            simp
          have hcard' : U.toFinset.card < fuel + acc.length := by omega
          obtain ⟨hnd1, hsub1, hs1, hnc1⟩ :=
            ih acc s h1 h2 (hlU s (List.mem_cons_self s rest)) hcard'
          obtain ⟨pre1, hpre1⟩ := dfs_append edges fuel acc s
          have hmono1 : ∀ v ∈ acc, v ∈ dfs edges fuel acc s := dfs_mono edges fuel acc s
          have hext1 : ∃ pre, dfs edges fuel acc s = pre ++ f :: inv :=
            ⟨pre1 ++ pre, by rw [hpre1, hpre, List.append_assoc]⟩
          have hnc1' : ∀ v ∈ dfs edges fuel acc s, v ∉ f :: inv →
              ∀ w ∈ succs edges v, w ∈ dfs edges fuel acc s := by
            intro v hv hvn w hw
            by_cases hva : v ∈ acc
            · exact hmono1 w (h4 v hva hvn w hw)
            · exact hnc1 v hv hva w hw
          obtain ⟨a1, a2, a3, a4, a5, a6⟩ :=
            ihl (fun s' hs' => hlU s' (List.mem_cons_of_mem s hs'))
              (dfs edges fuel acc s) hnd1 hsub1 hext1 hnc1'
          refine ⟨a1, a2, a3, a4, ?_, fun v hv => a6 v (hmono1 v hv)⟩
          intro s' hs'
          rcases List.mem_cons.mp hs' with rfl | hs'
          · exact a6 s' hs1
          · exact a5 s' hs'
      have hinv0nd : (f :: inv).Nodup := List.nodup_cons.mpr ⟨hfn, hnd⟩
      have hinv0sub : ∀ v ∈ f :: inv, v ∈ U := by
        intro v hv
        rcases List.mem_cons.mp hv with rfl | hv
        · exact hfU
        · exact hsub v hv
      obtain ⟨b1, b2, b3, b4, b5, b6⟩ :=
        hfold (succs edges f) (fun s hs => hU f s hs) (f :: inv) hinv0nd hinv0sub
          ⟨[], rfl⟩ (fun v hv hvn => (hvn hv).elim)
      refine ⟨b1, b2, b6 f (List.mem_cons_self f inv), ?_⟩
      intro v hv hvn w hw
      by_cases hvf : v = f
      · subst hvf
        exact b5 w hw
      · have hvn' : v ∉ f :: inv := by simp [hvf, hvn]
        exact b4 v hv hvn' w hw

lemma reach_mem_closed {edges : List Edge} {S : List String}
    (hclosed : ∀ v ∈ S, ∀ w ∈ succs edges v, w ∈ S) :
    ∀ {t x : String}, Reach edges t x → t ∈ S → x ∈ S := by
  intro t x hr
  induction hr with
  | refl f => exact fun h => h
  | head hg _ ihr => exact fun h => ihr (hclosed _ h _ hg)

lemma gather_sound (g : Graph) (fuel : Nat) :
    ∀ (l inv : List String) (x : String),
      x ∈ List.foldl
        (fun inv tf => if g.nodes.contains tf then dfs g.edges fuel inv tf else inv) inv l →
      x ∈ inv ∨ ∃ t ∈ l, t ∈ g.nodes ∧ Reach g.edges t x := by
  intro l
  induction l with
  | nil => intro inv x h; exact Or.inl h
  | cons t rest ihl =>
    intro inv x h
    rw [List.foldl_cons] at h
    rcases ihl _ x h with h1 | ⟨t', ht', hn', hr'⟩
    · by_cases hc : g.nodes.contains t = true
      · rw [if_pos hc] at h1
        rcases dfs_sound g.edges fuel inv t x h1 with h2 | h2
        · exact Or.inl h2
        · exact Or.inr ⟨t, List.mem_cons_self t rest, by simpa using hc, h2⟩
      · rw [if_neg hc] at h1
        exact Or.inl h1
    · exact Or.inr ⟨t', List.mem_cons_of_mem t ht', hn', hr'⟩

lemma gather_foldl_invariant (g : Graph) (U : List String) (fuel : Nat)
    (hU : ∀ f : String, ∀ s ∈ succs g.edges f, s ∈ U)
    (hfuel : U.toFinset.card < fuel) :
    ∀ (l : List String), (∀ t ∈ l, t ∈ U) →
      ∀ (inv : List String), inv.Nodup → (∀ v ∈ inv, v ∈ U) →
      (∀ v ∈ inv, ∀ w ∈ succs g.edges v, w ∈ inv) →
      (List.foldl
        (fun inv tf => if g.nodes.contains tf then dfs g.edges fuel inv tf else inv) inv l).Nodup
      ∧ (∀ v ∈ List.foldl
          (fun inv tf => if g.nodes.contains tf then dfs g.edges fuel inv tf else inv) inv l,
          ∀ w ∈ succs g.edges v,
            w ∈ List.foldl
              (fun inv tf => if g.nodes.contains tf then dfs g.edges fuel inv tf else inv) inv l)
      ∧ (∀ t ∈ l, t ∈ g.nodes →
          t ∈ List.foldl
            (fun inv tf => if g.nodes.contains tf then dfs g.edges fuel inv tf else inv) inv l)
      ∧ (∀ v ∈ inv,
          v ∈ List.foldl
            (fun inv tf => if g.nodes.contains tf then dfs g.edges fuel inv tf else inv) inv l) := by
  intro l
  induction l with
  | nil =>
    intro _ inv h1 _ h3
    exact ⟨h1, h3, by simp, fun v hv => hv⟩
  | cons t rest ihl =>
    intro hlU inv hnd hsub hclosed
    rw [List.foldl_cons]
    by_cases hc : g.nodes.contains t = true
    · rw [if_pos hc]
      have hcard : U.toFinset.card < fuel + inv.length := by omega
      obtain ⟨hnd1, hsub1, ht1, hnc1⟩ :=
        dfs_complete g.edges U hU fuel inv t hnd hsub (hlU t (List.mem_cons_self t rest)) hcard
      have hmono1 := dfs_mono g.edges fuel inv t
      have hclosed1 : ∀ v ∈ dfs g.edges fuel inv t, ∀ w ∈ succs g.edges v,
          w ∈ dfs g.edges fuel inv t := by
        intro v hv w hw
        by_cases hvi : v ∈ inv
        · exact hmono1 w (hclosed v hvi w hw)
        · exact hnc1 v hv hvi w hw
      obtain ⟨a1, a2, a3, a4⟩ :=
        ihl (fun t' ht' => hlU t' (List.mem_cons_of_mem t ht'))
          (dfs g.edges fuel inv t) hnd1 hsub1 hclosed1
      refine ⟨a1, a2, ?_, fun v hv => a4 v (hmono1 v hv)⟩
      intro t' ht' htn
      rcases List.mem_cons.mp ht' with rfl | ht'
      · exact a4 t' ht1
      · exact a3 t' ht' htn
    · rw [if_neg hc]
      obtain ⟨a1, a2, a3, a4⟩ :=
        ihl (fun t' ht' => hlU t' (List.mem_cons_of_mem t ht')) inv hnd hsub hclosed
      refine ⟨a1, a2, ?_, a4⟩
      intro t' ht' htn
      rcases List.mem_cons.mp ht' with rfl | ht'
      · exact absurd (by simpa using htn) (by simpa using hc)
      · exact a3 t' ht' htn

/-- C8: for every graph and target set the Context Collector terminates (its
fuel is provably sufficient) and returns exactly the nodes reachable from the
in-graph targets along import edges; targets absent from the node set
contribute nothing; on the spec's chain `A → B → C` the result from `{A}` is
`{A, B, C}`, and on the cycle `A → B → A` it is `{A, B}`. -/
theorem C8_collector_returns_exactly_reachable :
    (∀ (g : Graph) (targets : List String) (x : String),
      x ∈ gather_involved g targets
        ↔ ∃ t ∈ targets, t ∈ g.nodes ∧ Reach g.edges t x)
    ∧ (gather_involved chainGraph ["A"]).toFinset = {"A", "B", "C"}
    ∧ (gather_involved cycleGraph ["A"]).toFinset = {"A", "B"}
    ∧ gather_involved chainGraph ["Z"] = [] := by
  refine ⟨?_, by decide, by decide, by decide⟩
  intro g targets x
  rw [gather_involved]
  constructor
  · intro hx
    rcases gather_sound g (g.edges.length + targets.length + 1) targets [] x hx with h | h
    · simp at h
    · exact h
  · rintro ⟨t, ht, htn, hr⟩
    have hU : ∀ f : String, ∀ s ∈ succs g.edges f,
        s ∈ targets ++ g.edges.filterMap (fun e => e.«to») :=
      fun f s hs => List.mem_append.mpr (Or.inr (succs_subset_targets hs))
    have hfuel : (targets ++ g.edges.filterMap (fun e => e.«to»)).toFinset.card
        < g.edges.length + targets.length + 1 := by
      have h1 := List.toFinset_card_le (targets ++ g.edges.filterMap (fun e => e.«to»))
      rw [List.length_append] at h1
      have h2 := List.length_filterMap_le (fun e : Edge => e.«to») g.edges
      omega
    obtain ⟨_, hclosed, htarg, _⟩ :=
      gather_foldl_invariant g (targets ++ g.edges.filterMap (fun e => e.«to»))
        (g.edges.length + targets.length + 1) hU hfuel targets
        (fun t' ht' => List.mem_append.mpr (Or.inl ht'))
        [] (by simp) (by simp) (by simp)
    exact reach_mem_closed hclosed hr (htarg t ht htn)
